import Mathlib

/-!
Verification of `scripts/parse_dict_entries.py`: a script that splits a JSON
array of dictionary entries into one JSON file per entry, naming each file
after the entry's sanitised `title` and disambiguating duplicate titles with
a numeric suffix.

Strings are modelled as `List Char`; JSON values as the inductive `JValue`
(numbers restricted to integers); Python dictionaries as ordered association
lists with unique keys.  The behaviour of the Python standard-library calls
the script makes (`re.sub` with a character class, `str.strip`,
`json.dump(..., ensure_ascii=False, indent=2)`, `json.load`) is embedded
directly, following CPython semantics on the modelled fragment.
-/

namespace MoeSplit

/-- Strings are lists of unicode scalar values, as in Python. -/
abbrev Str := List Char

/-- The double-quote character. -/
def quoteC : Char := Char.ofNat 34

/-- The backslash character. -/
def backslashC : Char := Char.ofNat 92

/-- The opening-brace character. -/
def lbraceC : Char := Char.ofNat 123

/-- The closing-brace character. -/
def rbraceC : Char := Char.ofNat 125

/-- The characters replaced by `sanitise_filename`, from the character class
`[\\/:*?"<>|]` in the script. -/
def invalidChar (c : Char) : Bool :=
  c = backslashC || c = '/' || c = ':' || c = '*' || c = '?' || c = quoteC ||
    c = '<' || c = '>' || c = '|'

/-- Characters stripped by Python's `str.strip()` with no argument
(CPython's notion of whitespace: ASCII whitespace, the separator control
characters 0x1c–0x1f, and the Unicode space characters). -/
def pyWs (c : Char) : Bool :=
  c.toNat ∈ [9, 10, 11, 12, 13, 28, 29, 30, 31, 32, 133, 160, 5760,
    8192, 8193, 8194, 8195, 8196, 8197, 8198, 8199, 8200, 8201, 8202,
    8232, 8233, 8239, 8287, 12288]

/-- Python's `str.strip()`: remove leading and trailing whitespace. -/
def pyStrip (s : Str) : Str :=
  ((s.dropWhile pyWs).reverse.dropWhile pyWs).reverse

/-- `sanitise_filename` from the script: `re.sub(r"[\\/:*?\"<>|]", "_", name)`
followed by `name.strip()`. -/
def sanitise_filename (name : Str) : Str :=
  pyStrip (name.map (fun c => if invalidChar c then '_' else c))

/-- JSON values, with numbers restricted to integers (the moedict data the
script processes, and every claim below, only involves integer numerals;
floating point is outside the model).  Objects are ordered key/value lists,
as CPython dictionaries preserve insertion order. -/
inductive JValue where
  | null : JValue
  | bool (b : Bool) : JValue
  | num (n : Int) : JValue
  | str (s : Str) : JValue
  | arr (items : List JValue) : JValue
  | obj (fields : List (Str × JValue)) : JValue

/-- Python truthiness (`bool(v)`) of a JSON value: `None`, `False`, `0`, `""`,
`[]` and `{}` are falsy, everything else truthy. -/
def truthy : JValue → Bool
  | .null => false
  | .bool b => b
  | .num n => n != 0
  | .str s => !s.isEmpty
  | .arr xs => !xs.isEmpty
  | .obj fs => !fs.isEmpty

/-- First-match lookup in an ordered association list; models `dict.get` on a
Python dictionary (whose keys are unique, so first match is the match). -/
def lookupA : List (Str × JValue) → Str → Option JValue
  | [], _ => none
  | f :: rest, k => if f.1 = k then some f.2 else lookupA rest k

/-- Lowercase hexadecimal digit for a value below 16, as `json.dump` emits in
`\u00xx` escapes. -/
def hexDigit (n : Nat) : Char :=
  if n < 10 then Char.ofNat (48 + n) else Char.ofNat (87 + n)

/-- Decimal digit character for a value below 10. -/
def digitChar (d : Nat) : Char := Char.ofNat (48 + d)

/-- Little-endian base-10 digit list of `n`, computed with explicit fuel so
that it reduces definitionally; agrees with `Nat.digits 10 n` once the fuel
reaches `n` (see `digitsRev_eq_digits`). -/
def digitsRev : Nat → Nat → List Nat
  | 0, _ => []
  | _ + 1, 0 => []
  | fuel + 1, n + 1 => ((n + 1) % 10) :: digitsRev fuel ((n + 1) / 10)

/-- Decimal representation of a natural number, as Python's `str`/`repr`. -/
def natChars (n : Nat) : Str :=
  if n = 0 then ['0'] else ((digitsRev n n).map digitChar).reverse

/-- Decimal representation of an integer, as Python serialises `int`. -/
def intChars (i : Int) : Str :=
  if i < 0 then '-' :: natChars i.natAbs else natChars i.natAbs

/-- How `json.dump` escapes one character inside a string literal when
`ensure_ascii=False`: backslash, quote and the short control escapes, then
`\u00xx` for remaining control characters; every other character (including
all non-ASCII) is emitted unchanged. -/
def escChar (c : Char) : Str :=
  if c = backslashC then [backslashC, backslashC]
  else if c = quoteC then [backslashC, quoteC]
  else if c = '\n' then [backslashC, 'n']
  else if c = '\t' then [backslashC, 't']
  else if c = '\r' then [backslashC, 'r']
  else if c.toNat = 8 then [backslashC, 'b']
  else if c.toNat = 12 then [backslashC, 'f']
  else if c.toNat < 32 then
    [backslashC, 'u', '0', '0', hexDigit (c.toNat / 16), hexDigit (c.toNat % 16)]
  else [c]

/-- Escape a whole string body. -/
def escString : Str → Str
  | [] => []
  | c :: rest => escChar c ++ escString rest

/-- A JSON string literal: quote, escaped body, quote. -/
def dumpStr (s : Str) : Str := quoteC :: escString s ++ [quoteC]

/-- Indentation emitted by `json.dump` with `indent=2` at nesting depth `d`. -/
def indentChars (d : Nat) : Str := List.replicate (2 * d) ' '

mutual

/-- `json.dumps(v, ensure_ascii=False, indent=2)` at nesting depth `d`
(the script calls `json.dump(entry, out_f, ensure_ascii=False, indent=2)`,
i.e. depth 0).  With an indent, CPython uses item separator `","` followed
by a newline and indentation, and key separator `": "`. -/
def dumpsV : JValue → Nat → Str
  | .null, _ => ['n', 'u', 'l', 'l']
  | .bool true, _ => ['t', 'r', 'u', 'e']
  | .bool false, _ => ['f', 'a', 'l', 's', 'e']
  | .num n, _ => intChars n
  | .str s, _ => dumpStr s
  | .arr [], _ => ['[', ']']
  | .arr (x :: xs), d =>
      '[' :: '\n' :: indentChars (d + 1) ++ dumpsItems (x :: xs) (d + 1) ++
        '\n' :: indentChars d ++ [']']
  | .obj [], _ => [lbraceC, rbraceC]
  | .obj (f :: fs), d =>
      lbraceC :: '\n' :: indentChars (d + 1) ++ dumpsFields (f :: fs) (d + 1) ++
        '\n' :: indentChars d ++ [rbraceC]

/-- The comma-newline-indent separated items of a non-empty array. -/
def dumpsItems : List JValue → Nat → Str
  | [], _ => []
  | [x], d => dumpsV x d
  | x :: y :: rest, d =>
      dumpsV x d ++ ',' :: '\n' :: indentChars d ++ dumpsItems (y :: rest) d

/-- The comma-newline-indent separated `"key": value` fields of a non-empty
object. -/
def dumpsFields : List (Str × JValue) → Nat → Str
  | [], _ => []
  | [f], d => dumpStr f.1 ++ ':' :: ' ' :: dumpsV f.2 d
  | f :: g :: rest, d =>
      dumpStr f.1 ++ ':' :: ' ' :: dumpsV f.2 d ++
        ',' :: '\n' :: indentChars d ++ dumpsFields (g :: rest) d

end

/-- JSON whitespace skipped by `json.loads` between tokens. -/
def jsonWs (c : Char) : Bool := c = ' ' || c = '\t' || c = '\n' || c = '\r'

/-- Skip leading JSON whitespace. -/
def skipWs (s : Str) : Str := s.dropWhile jsonWs

/-- Decimal digit test. -/
def isDigit (c : Char) : Bool := 48 ≤ c.toNat && c.toNat ≤ 57

/-- Value of a hexadecimal digit, if any. -/
def hexVal (c : Char) : Option Nat :=
  if 48 ≤ c.toNat && c.toNat ≤ 57 then some (c.toNat - 48)
  else if 97 ≤ c.toNat && c.toNat ≤ 102 then some (c.toNat - 87)
  else if 65 ≤ c.toNat && c.toNat ≤ 70 then some (c.toNat - 55)
  else none

/-- Decoding of a single-character escape (`\"`, `\\`, `\/`, `\b`, `\f`,
`\n`, `\r`, `\t`). -/
def unescC (c : Char) : Option Char :=
  if c = quoteC then some quoteC
  else if c = backslashC then some backslashC
  else if c = '/' then some '/'
  else if c = 'b' then some (Char.ofNat 8)
  else if c = 'f' then some (Char.ofNat 12)
  else if c = 'n' then some '\n'
  else if c = 'r' then some '\r'
  else if c = 't' then some '\t'
  else none

/-- Parse the body of a JSON string literal after its opening quote, up to and
including the closing quote; raw control characters are rejected as in
`json.loads` strict mode.  The fuel decreases once per produced character and
is immaterial whenever it exceeds the number of produced characters; callers
pass the remaining input length plus one, which always suffices. -/
def parseStringBody : Nat → Str → Option (Str × Str)
  | 0, _ => none
  | _, [] => none
  | fuel + 1, c :: rest =>
    if c = quoteC then some ([], rest)
    else if c = backslashC then
      match rest with
      | [] => none
      | e :: r2 =>
        if e = 'u' then
          match r2 with
          | h1 :: h2 :: h3 :: h4 :: r3 =>
            match hexVal h1, hexVal h2, hexVal h3, hexVal h4 with
            | some a, some b, some c2, some d2 =>
              match parseStringBody fuel r3 with
              | some (s, r4) =>
                  some (Char.ofNat (4096 * a + 256 * b + 16 * c2 + d2) :: s, r4)
              | none => none
            | _, _, _, _ => none
          | _ => none
        else
          match unescC e with
          | some u =>
            match parseStringBody fuel r2 with
            | some (s, r3) => some (u :: s, r3)
            | none => none
          | none => none
    else if c.toNat < 32 then none
    else
      match parseStringBody fuel rest with
      | some (s, r2) => some (c :: s, r2)
      | none => none

/-- Greedily read decimal digits, returning them and the remaining input. -/
def parseDigits : Str → Str × Str
  | [] => ([], [])
  | c :: rest =>
    if isDigit c then
      let p := parseDigits rest
      (c :: p.1, p.2)
    else ([], c :: rest)

/-- Numeric value of a string of decimal digits (most significant first). -/
def digitsVal (ds : Str) : Nat :=
  Nat.ofDigits 10 ((ds.map (fun c => c.toNat - 48)).reverse)

/-- Whether a string begins with a decimal digit (the only way a following
token could be absorbed by the greedy number parser). -/
def digitStart : Str → Bool
  | [] => false
  | c :: _ => isDigit c

mutual

/-- Fuel-indexed JSON value parser modelling `json.loads` on the integer
fragment (no floats, exponents, `NaN` or `Infinity`); the fuel only bounds
nesting and is immaterial whenever it exceeds the nesting cost of the value. -/
def parseValue : Nat → Str → Option (JValue × Str)
  | 0, _ => none
  | fuel + 1, s =>
    match s with
    | [] => none
    | c :: rest =>
      if c = quoteC then
        match parseStringBody (rest.length + 1) rest with
        | some (body, r2) => some (.str body, r2)
        | none => none
      else if c = 'n' then
        match rest with
        | c1 :: c2 :: c3 :: r2 =>
          if c1 = 'u' ∧ c2 = 'l' ∧ c3 = 'l' then some (.null, r2) else none
        | _ => none
      else if c = 't' then
        match rest with
        | c1 :: c2 :: c3 :: r2 =>
          if c1 = 'r' ∧ c2 = 'u' ∧ c3 = 'e' then some (.bool true, r2) else none
        | _ => none
      else if c = 'f' then
        match rest with
        | c1 :: c2 :: c3 :: c4 :: r2 =>
          if c1 = 'a' ∧ c2 = 'l' ∧ c3 = 's' ∧ c4 = 'e' then some (.bool false, r2)
          else none
        | _ => none
      else if c = '-' then
        match parseDigits rest with
        | ([], _) => none
        | (d :: ds, r2) => some (.num (-(digitsVal (d :: ds) : Int)), r2)
      else if isDigit c then
        match parseDigits (c :: rest) with
        | ([], _) => none
        | (d :: ds, r2) => some (.num ((digitsVal (d :: ds) : Int)), r2)
      else if c = '[' then
        match skipWs rest with
        | d :: r2 =>
          if d = ']' then some (.arr [], r2)
          else
            match parseItems fuel (d :: r2) with
            | some (vs, r3) => some (.arr vs, r3)
            | none => none
        | [] => none
      else if c = lbraceC then
        match skipWs rest with
        | d :: r2 =>
          if d = rbraceC then some (.obj [], r2)
          else
            match parseFields fuel (d :: r2) with
            | some (fs, r3) => some (.obj fs, r3)
            | none => none
        | [] => none
      else none

/-- Parse the comma-separated items of a non-empty array, up to and including
the closing bracket. -/
def parseItems : Nat → Str → Option (List JValue × Str)
  | 0, _ => none
  | fuel + 1, s =>
    match parseValue fuel s with
    | none => none
    | some (v, r) =>
      match skipWs r with
      | c :: r2 =>
        if c = ',' then
          match parseItems fuel (skipWs r2) with
          | some (vs, r3) => some (v :: vs, r3)
          | none => none
        else if c = ']' then some ([v], r2)
        else none
      | [] => none

/-- Parse the comma-separated fields of a non-empty object, up to and
including the closing brace. -/
def parseFields : Nat → Str → Option (List (Str × JValue) × Str)
  | 0, _ => none
  | fuel + 1, s =>
    match s with
    | [] => none
    | c :: r =>
      if c = quoteC then
        match parseStringBody (r.length + 1) r with
        | none => none
        | some (key, r2) =>
          match skipWs r2 with
          | d :: r3 =>
            if d = ':' then
              match parseValue fuel (skipWs r3) with
              | none => none
              | some (v, r4) =>
                match skipWs r4 with
                | d2 :: r5 =>
                  if d2 = ',' then
                    match parseFields fuel (skipWs r5) with
                    | some (fs, r6) => some ((key, v) :: fs, r6)
                    | none => none
                  else if d2 = rbraceC then some ([(key, v)], r5)
                  else none
                | [] => none
            else none
          | [] => none
      else none

end

/-- `json.loads` on a whole document: parse one value surrounded by optional
whitespace; anything else remaining makes the document invalid. -/
def json_loads (s : Str) : Option JValue :=
  match parseValue (s.length + 1) (skipWs s) with
  | some (v, r) => if (skipWs r).isEmpty then some v else none
  | none => none

/-- Runtime errors the script can raise while looping over the loaded
document: `json.JSONDecodeError` from `json.load` (the spec's
`DataFormatError`), `AttributeError` from calling `.get` on a non-dict, and
`TypeError` from `re.sub` applied to a non-string truthy title or from
iterating a non-iterable top-level value. -/
inductive PyError where
  | jsonDecodeError : PyError
  | attributeError : PyError
  | typeError : PyError
deriving DecidableEq

/-- The `title` key. -/
def titleKey : Str := "title".data

/-- The `.json` filename extension. -/
def dotJson : Str := ".json".data

/-- The filename the script builds from a sanitised title and the current
count: `f"{safe_title}_{count}.json"` when the count is positive, else
`f"{safe_title}.json"`. -/
def nameFor (st : Str) (k : Nat) : Str :=
  if k > 0 then st ++ '_' :: (natChars k ++ dotJson) else st ++ dotJson

/-- Lookup in the `seen_counts` table, defaulting to 0 (`defaultdict(int)`). -/
def countsGet : List (Str × Nat) → Str → Nat
  | [], _ => 0
  | e :: rest, k => if e.1 = k then e.2 else countsGet rest k

/-- `seen_counts[safe_title] += 1` on the `defaultdict`. -/
def countsIncr : List (Str × Nat) → Str → List (Str × Nat)
  | [], k => [(k, 1)]
  | e :: rest, k =>
    if e.1 = k then (e.1, e.2 + 1) :: rest else e :: countsIncr rest k

/-- The observable state of a (partial) run of the splitting loop: the
`seen_counts` table, the file writes performed in order, and the error that
aborted the loop, if any. -/
structure RunResult where
  counts : List (Str × Nat)
  writes : List (Str × Str)
  err : Option PyError
deriving DecidableEq

/-- One iteration of the loop body of `split_dictionary` on entry `e`:
`title = entry.get('title')`; skip when falsy; otherwise sanitise, pick the
filename from the current count, increment the count, and write the
2-space-indented non-ASCII-preserving serialization of the entry.  A
non-dict entry raises `AttributeError` at the `.get` call; a truthy
non-string title raises `TypeError` inside `re.sub`. -/
def stepEntry (counts : List (Str × Nat)) (e : JValue) : RunResult :=
  match e with
  | .obj fs =>
    let title := (lookupA fs titleKey).getD .null
    if truthy title then
      match title with
      | .str t =>
        let safe := sanitise_filename t
        let count := countsGet counts safe
        ⟨countsIncr counts safe, [(nameFor safe count, dumpsV e 0)], none⟩
      | _ => ⟨counts, [], some .typeError⟩
    else ⟨counts, [], none⟩
  | _ => ⟨counts, [], some .attributeError⟩

/-- The `for entry in entries` loop of `split_dictionary`: process entries in
order, stopping at the first raised error (writes performed before the error
remain). -/
def splitLoop : List (Str × Nat) → List JValue → RunResult
  | counts, [] => ⟨counts, [], none⟩
  | counts, e :: rest =>
    let s := stepEntry counts e
    match s.err with
    | some er => ⟨s.counts, s.writes, some er⟩
    | none =>
      let r := splitLoop s.counts rest
      ⟨r.counts, s.writes ++ r.writes, r.err⟩

/-- Python iteration over the loaded top-level value: a list yields its
items, a dict yields its keys (as strings), a string yields its characters
(as one-character strings); numbers, booleans and `None` are not iterable
and raise `TypeError`. -/
def pyIter : JValue → Except PyError (List JValue)
  | .arr xs => .ok xs
  | .obj fs => .ok (fs.map (fun f => JValue.str f.1))
  | .str s => .ok (s.map (fun c => JValue.str [c]))
  | _ => .error .typeError

/-- `split_dictionary` after a successful `json.load`: iterate the document
and run the loop with an empty `seen_counts`. -/
def split_dictionary (doc : JValue) : RunResult :=
  match pyIter doc with
  | .error e => ⟨[], [], some e⟩
  | .ok items => splitLoop [] items

/-- `split_dictionary` from the raw file content: `json.load`, which raises
`JSONDecodeError` on invalid JSON before anything is written, then the loop. -/
def split_file (content : Str) : RunResult :=
  match json_loads content with
  | none => ⟨[], [], some .jsonDecodeError⟩
  | some doc => split_dictionary doc

/-- Overwrite one file in a directory (modelled as a partial map from
filename to content). -/
def applyWrite (d : Str → Option Str) (w : Str × Str) : Str → Option Str :=
  fun n => if n = w.1 then some w.2 else d n

/-- Perform a list of file writes in order, each overwriting. -/
def applyWrites (d : Str → Option Str) : List (Str × Str) → (Str → Option Str)
  | [] => d
  | w :: rest => applyWrites (applyWrite d w) rest

/-- The content a file holds after a list of writes into an initially empty
directory: the last write to that name, if any. -/
def lastContent : List (Str × Str) → Str → Option Str
  | [], _ => none
  | w :: rest, n =>
    match lastContent rest n with
    | some c => some c
    | none => if w.1 = n then some w.2 else none

/-- The distinct filenames produced by a list of writes. -/
def dirNames (ws : List (Str × Str)) : List Str := (ws.map Prod.fst).dedup

/-- The `title` string of an entry, for entries whose title is a string
(and `[]` otherwise; only used under `goodEntry`). -/
def entryTitle (e : JValue) : Str :=
  match e with
  | .obj fs =>
    match lookupA fs titleKey with
    | some (.str t) => t
    | _ => []
  | _ => []

/-- An entry the loop processes into a write: a dict whose `title` is a
non-empty string. -/
def goodEntry : JValue → Bool
  | .obj fs =>
    match lookupA fs titleKey with
    | some (.str t) => !t.isEmpty
    | _ => false
  | _ => false

/-- An entry the loop handles without raising: a dict whose `title` is a
string or falsy (absence behaves as `None`). -/
def wfEntry : JValue → Bool
  | .obj fs =>
    match (lookupA fs titleKey).getD .null with
    | .str _ => true
    | v => !truthy v
  | _ => false

/-- The sanitised title of a processed entry, `none` for skipped ones. -/
def stOf (e : JValue) : Option Str :=
  if goodEntry e then some (sanitise_filename (entryTitle e)) else none

/-- Character-wise replacement performed by `re.sub(r"[\\/:*?\"<>|]", "_", name)`. -/
def replInvalid (c : Char) : Char := if invalidChar c then '_' else c

/-- Occurrences of a string in a list of strings. -/
def countStr : List Str → Str → Nat
  | [], _ => 0
  | s :: rest, t => (if s = t then 1 else 0) + countStr rest t

/-- The sanitised titles of the entries the loop processes (skipped entries
contribute nothing), in source order. -/
def procTitles (es : List JValue) : List Str :=
  (es.filter goodEntry).map (fun e => sanitise_filename (entryTitle e))

mutual

/-- Fuel sufficient for the parser to re-read a serialised value: one unit
per value plus one per array item or object field. -/
def jfuel : JValue → Nat
  | .null => 1
  | .bool _ => 1
  | .num _ => 1
  | .str _ => 1
  | .arr xs => 1 + jfuelItems xs
  | .obj fs => 1 + jfuelFields fs

/-- Fuel sufficient to re-read the items of an array. -/
def jfuelItems : List JValue → Nat
  | [] => 1
  | v :: rest => 1 + jfuel v + jfuelItems rest

/-- Fuel sufficient to re-read the fields of an object. -/
def jfuelFields : List (Str × JValue) → Nat
  | [] => 1
  | f :: rest => 1 + jfuel f.2 + jfuelFields rest

end

/-! ### Sanitizer lemmas -/

theorem pyStrip_eq_rdropWhile (s : Str) :
    pyStrip s = List.rdropWhile pyWs (s.dropWhile pyWs) := rfl

theorem mem_pyStrip {c : Char} {s : Str} (h : c ∈ pyStrip s) : c ∈ s := by
  rw [pyStrip_eq_rdropWhile] at h
  exact (List.dropWhile_sublist pyWs).subset
    (((List.rdropWhile_prefix pyWs _).sublist).subset h)

theorem head?_pyStrip {c : Char} {s : Str} (h : (pyStrip s).head? = some c) :
    pyWs c = false := by
  rw [pyStrip_eq_rdropWhile] at h
  have hpre := List.rdropWhile_prefix pyWs (s.dropWhile pyWs)
  obtain ⟨u, hu⟩ := hpre
  have hne : List.rdropWhile pyWs (s.dropWhile pyWs) ≠ [] := by
    intro hnil; rw [hnil] at h; simp at h
  have hhead : (s.dropWhile pyWs).head? = some c := by
    rw [← hu, List.head?_append_of_ne_nil _ hne, h]
  have := List.head?_dropWhile_not pyWs s
  rw [hhead] at this
  exact this

theorem getLast?_pyStrip {c : Char} {s : Str} (h : (pyStrip s).getLast? = some c) :
    pyWs c = false := by
  rw [pyStrip_eq_rdropWhile] at h
  have hne : List.rdropWhile pyWs (s.dropWhile pyWs) ≠ [] := by
    intro hnil; rw [hnil] at h; simp at h
  have hlast := List.rdropWhile_last_not pyWs (s.dropWhile pyWs) hne
  rw [List.getLast?_eq_getLast _ hne] at h
  have hc : (List.rdropWhile pyWs (s.dropWhile pyWs)).getLast hne = c :=
    Option.some_injective _ h
  rw [hc] at hlast
  exact Bool.eq_false_iff.mpr hlast

theorem underscore_not_invalid : invalidChar '_' = false := by decide

/-- C1: the sanitizer replaces every reserved character by an underscore and
then strips leading and trailing whitespace; the result contains no reserved
character, has no leading or trailing whitespace, and every surviving
character is an underscore or a character of the input. -/
theorem claim_C1 (s : Str) :
    sanitise_filename s = pyStrip (s.map replInvalid) ∧
    (∀ c ∈ sanitise_filename s, invalidChar c = false ∧ (c = '_' ∨ c ∈ s)) ∧
    (∀ c, (sanitise_filename s).head? = some c → pyWs c = false) ∧
    (∀ c, (sanitise_filename s).getLast? = some c → pyWs c = false) := by
  refine ⟨rfl, ?_, fun c h => head?_pyStrip h, fun c h => getLast?_pyStrip h⟩
  intro c hc
  have hmem : c ∈ s.map replInvalid := mem_pyStrip hc
  obtain ⟨a, ha, hra⟩ := List.mem_map.mp hmem
  unfold replInvalid at hra
  by_cases hinv : invalidChar a
  · rw [hinv] at hra; simp at hra
    exact ⟨hra ▸ underscore_not_invalid, Or.inl hra.symm⟩
  · rw [Bool.not_eq_true] at hinv
    rw [hinv] at hra; simp at hra
    exact ⟨hra ▸ hinv, Or.inr (hra ▸ ha)⟩

/-! ### Decimal digit lemmas -/

theorem charNe_of_toNat_ne {a b : Char} (h : a.toNat ≠ b.toNat) : a ≠ b :=
  fun he => h (he ▸ rfl)

theorem toNat_digitChar {d : Nat} (h : d < 10) : (digitChar d).toNat = 48 + d := by
  have hv : (48 + d).isValidChar := by left; omega
  unfold digitChar Char.ofNat
  split
  · rfl
  · omega

theorem isDigit_digitChar {d : Nat} (h : d < 10) : isDigit (digitChar d) = true := by
  unfold isDigit
  rw [toNat_digitChar h]
  simp only [Bool.and_eq_true, decide_eq_true_eq]
  omega

theorem digitsRev_eq_digits : ∀ fuel n, n ≤ fuel → digitsRev fuel n = Nat.digits 10 n := by
  intro fuel
  induction fuel with
  | zero =>
    intro n hn
    have h0 : n = 0 := Nat.le_zero.mp hn
    subst h0
    exact (Nat.digits_zero 10).symm
  | succ f ih =>
    intro n hn
    match n with
    | 0 => exact (Nat.digits_zero 10).symm
    | m + 1 =>
      rw [digitsRev, ih ((m + 1) / 10) (by omega),
        Nat.digits_def' (by norm_num : (1 : ℕ) < 10) (Nat.succ_pos m)]

theorem natChars_eq (n : Nat) :
    natChars n = if n = 0 then ['0'] else ((Nat.digits 10 n).map digitChar).reverse := by
  unfold natChars
  rw [digitsRev_eq_digits n n le_rfl]

theorem mem_natChars_isDigit {c : Char} {n : Nat} (h : c ∈ natChars n) :
    isDigit c = true := by
  rw [natChars_eq] at h
  by_cases hn : n = 0
  · rw [if_pos hn] at h
    simp only [List.mem_singleton] at h
    subst h
    decide
  · rw [if_neg hn, List.mem_reverse] at h
    obtain ⟨d, hd, rfl⟩ := List.mem_map.mp h
    exact isDigit_digitChar (Nat.digits_lt_base (by norm_num) hd)

theorem natChars_ne_nil (n : Nat) : natChars n ≠ [] := by
  rw [natChars_eq]
  by_cases hn : n = 0
  · rw [if_pos hn]; simp
  · rw [if_neg hn]
    simp only [ne_eq, List.reverse_eq_nil_iff, List.map_eq_nil_iff]
    exact Nat.digits_ne_nil_iff_ne_zero.mpr hn

theorem digitsVal_natChars (n : Nat) : digitsVal (natChars n) = n := by
  rw [natChars_eq]
  unfold digitsVal
  by_cases hn : n = 0
  · rw [if_pos hn]; subst hn; decide
  · rw [if_neg hn]
    have h1 : ((((Nat.digits 10 n).map digitChar).reverse).map
        (fun c => c.toNat - 48)).reverse
        = (Nat.digits 10 n).map (fun d => (digitChar d).toNat - 48) := by
      rw [List.map_reverse, List.reverse_reverse, List.map_map]
      rfl
    rw [h1]
    have h2 : (Nat.digits 10 n).map (fun d => (digitChar d).toNat - 48)
        = Nat.digits 10 n := by
      have hcongr : ∀ d ∈ Nat.digits 10 n, (digitChar d).toNat - 48 = d := by
        intro d hd
        rw [toNat_digitChar (Nat.digits_lt_base (by norm_num) hd)]
        omega
      rw [List.map_congr_left hcongr, List.map_id']
    rw [h2, Nat.ofDigits_digits]

theorem natChars_inj {a b : Nat} (h : natChars a = natChars b) : a = b := by
  have ha := digitsVal_natChars a
  rw [h, digitsVal_natChars] at ha
  exact ha.symm

theorem isDigit_bounds {c : Char} (h : isDigit c = true) :
    48 ≤ c.toNat ∧ c.toNat ≤ 57 := by
  unfold isDigit at h
  simp only [Bool.and_eq_true, decide_eq_true_eq] at h
  exact h

theorem isDigit_ne {c : Char} (h : isDigit c = true) (a : Char)
    (ha : a.toNat < 48 ∨ 57 < a.toNat) : ¬(c = a) := by
  obtain ⟨h1, h2⟩ := isDigit_bounds h
  intro he
  subst he
  omega

theorem parseDigits_append {ds rest : Str} (hds : ∀ c ∈ ds, isDigit c = true)
    (hrest : digitStart rest = false) : parseDigits (ds ++ rest) = (ds, rest) := by
  induction ds with
  | nil =>
    simp only [List.nil_append]
    cases rest with
    | nil => rfl
    | cons c r =>
      have hf : isDigit c = false := hrest
      unfold parseDigits
      rw [if_neg (by simp [hf])]
  | cons c cs ih =>
    have hc := hds c (List.mem_cons_self c cs)
    show parseDigits (c :: (cs ++ rest)) = (c :: cs, rest)
    unfold parseDigits
    rw [if_pos hc]
    simp only [ih (fun x hx => hds x (List.mem_cons_of_mem c hx))]

theorem parseValue_cons (fuel : Nat) (c : Char) (rest : Str) :
    parseValue (fuel + 1) (c :: rest) =
      (if c = quoteC then
        match parseStringBody (rest.length + 1) rest with
        | some (body, r2) => some (.str body, r2)
        | none => none
      else if c = 'n' then
        match rest with
        | c1 :: c2 :: c3 :: r2 =>
          if c1 = 'u' ∧ c2 = 'l' ∧ c3 = 'l' then some (.null, r2) else none
        | _ => none
      else if c = 't' then
        match rest with
        | c1 :: c2 :: c3 :: r2 =>
          if c1 = 'r' ∧ c2 = 'u' ∧ c3 = 'e' then some (.bool true, r2) else none
        | _ => none
      else if c = 'f' then
        match rest with
        | c1 :: c2 :: c3 :: c4 :: r2 =>
          if c1 = 'a' ∧ c2 = 'l' ∧ c3 = 's' ∧ c4 = 'e' then some (.bool false, r2)
          else none
        | _ => none
      else if c = '-' then
        match parseDigits rest with
        | ([], _) => none
        | (d :: ds, r2) => some (.num (-(digitsVal (d :: ds) : Int)), r2)
      else if isDigit c then
        match parseDigits (c :: rest) with
        | ([], _) => none
        | (d :: ds, r2) => some (.num ((digitsVal (d :: ds) : Int)), r2)
      else if c = '[' then
        match skipWs rest with
        | d :: r2 =>
          if d = ']' then some (.arr [], r2)
          else
            match parseItems fuel (d :: r2) with
            | some (vs, r3) => some (.arr vs, r3)
            | none => none
        | [] => none
      else if c = lbraceC then
        match skipWs rest with
        | d :: r2 =>
          if d = rbraceC then some (.obj [], r2)
          else
            match parseFields fuel (d :: r2) with
            | some (fs, r3) => some (.obj fs, r3)
            | none => none
        | [] => none
      else none) := rfl

theorem parseValue_natChars {fuel : Nat} (n : Nat) {rest : Str}
    (hrest : digitStart rest = false) :
    parseValue (fuel + 1) (natChars n ++ rest) = some (.num (n : Int), rest) := by
  obtain ⟨c0, cs, hnc⟩ : ∃ c0 cs, natChars n = c0 :: cs := by
    cases h : natChars n with
    | nil => exact absurd h (natChars_ne_nil n)
    | cons a l => exact ⟨a, l, rfl⟩
  have hall : ∀ x ∈ c0 :: cs, isDigit x = true := by
    intro x hx
    exact mem_natChars_isDigit (by rw [hnc]; exact hx)
  have hc0 : isDigit c0 = true := hall c0 (List.mem_cons_self c0 cs)
  have hp : parseDigits (c0 :: (cs ++ rest)) = (c0 :: cs, rest) := by
    have := parseDigits_append hall hrest
    rwa [List.cons_append] at this
  rw [hnc, List.cons_append, parseValue_cons]
  rw [if_neg (isDigit_ne hc0 quoteC (by decide)),
    if_neg (isDigit_ne hc0 'n' (by decide)),
    if_neg (isDigit_ne hc0 't' (by decide)),
    if_neg (isDigit_ne hc0 'f' (by decide)),
    if_neg (isDigit_ne hc0 '-' (by decide)),
    if_pos hc0]
  simp only [hp]
  have hval : digitsVal (c0 :: cs) = n := by
    rw [← hnc]
    exact digitsVal_natChars n
  rw [hval]

theorem parseValue_intChars {fuel : Nat} (i : Int) {rest : Str}
    (hrest : digitStart rest = false) :
    parseValue (fuel + 1) (intChars i ++ rest) = some (.num i, rest) := by
  unfold intChars
  by_cases hi : i < 0
  · rw [if_pos hi, List.cons_append]
    obtain ⟨c0, cs, hnc⟩ : ∃ c0 cs, natChars i.natAbs = c0 :: cs := by
      cases h : natChars i.natAbs with
      | nil => exact absurd h (natChars_ne_nil _)
      | cons a l => exact ⟨a, l, rfl⟩
    have hall : ∀ x ∈ c0 :: cs, isDigit x = true := by
      intro x hx
      exact mem_natChars_isDigit (by rw [hnc]; exact hx)
    have hp : parseDigits (natChars i.natAbs ++ rest) = (c0 :: cs, rest) := by
      rw [hnc] at *
      exact parseDigits_append hall hrest
    rw [parseValue_cons]
    rw [if_neg (by decide : ¬('-' = quoteC)), if_neg (by decide : ¬('-' = 'n')),
      if_neg (by decide : ¬('-' = 't')), if_neg (by decide : ¬('-' = 'f')),
      if_pos rfl]
    simp only [hp]
    have hval : digitsVal (c0 :: cs) = i.natAbs := by
      rw [← hnc]
      exact digitsVal_natChars _
    rw [hval]
    have : -((i.natAbs : Nat) : Int) = i := by omega
    rw [this]
  · rw [if_neg hi]
    have hin : ((i.natAbs : Nat) : Int) = i := by omega
    rw [← hin]
    exact parseValue_natChars i.natAbs hrest

/-! ### String literal round trip -/

theorem toNat_ofNat {n : Nat} (h : n < 55296) : (Char.ofNat n).toNat = n := by
  have hv : n.isValidChar := by left; omega
  unfold Char.ofNat
  split
  · rfl
  · omega

theorem hexVal_hexDigit {v : Nat} (h : v < 16) : hexVal (hexDigit v) = some v := by
  unfold hexDigit
  by_cases h10 : v < 10
  · rw [if_pos h10]
    have ht : (Char.ofNat (48 + v)).toNat = 48 + v := toNat_ofNat (by omega)
    unfold hexVal
    rw [ht, if_pos (by simp only [Bool.and_eq_true, decide_eq_true_eq]; omega)]
    congr 1
    omega
  · rw [if_neg h10]
    have ht : (Char.ofNat (87 + v)).toNat = 87 + v := toNat_ofNat (by omega)
    unfold hexVal
    rw [ht, if_neg (by simp only [Bool.and_eq_true, decide_eq_true_eq]; omega),
      if_pos (by simp only [Bool.and_eq_true, decide_eq_true_eq]; omega)]
    congr 1
    omega

theorem parseStringBody_cons (fuel : Nat) (c : Char) (rest : Str) :
    parseStringBody (fuel + 1) (c :: rest) =
      (if c = quoteC then some ([], rest)
      else if c = backslashC then
        match rest with
        | [] => none
        | e :: r2 =>
          if e = 'u' then
            match r2 with
            | h1 :: h2 :: h3 :: h4 :: r3 =>
              match hexVal h1, hexVal h2, hexVal h3, hexVal h4 with
              | some a, some b, some c2, some d2 =>
                match parseStringBody fuel r3 with
                | some (s, r4) =>
                    some (Char.ofNat (4096 * a + 256 * b + 16 * c2 + d2) :: s, r4)
                | none => none
              | _, _, _, _ => none
            | _ => none
          else
            match unescC e with
            | some u =>
              match parseStringBody fuel r2 with
              | some (s, r3) => some (u :: s, r3)
              | none => none
            | none => none
      else if c.toNat < 32 then none
      else
        match parseStringBody fuel rest with
        | some (s, r2) => some (c :: s, r2)
        | none => none) := rfl

theorem parseStringBody_esc (s : Str) : ∀ fuel rest, s.length < fuel →
    parseStringBody fuel (escString s ++ quoteC :: rest) = some (s, rest) := by
  induction s with
  | nil =>
    intro fuel rest hf
    match fuel, hf with
    | f + 1, _ => rfl
  | cons c cs ih =>
    intro fuel rest hf
    match fuel, hf with
    | f + 1, hf2 =>
    have hcs : cs.length < f := by
      simp only [List.length_cons] at hf2
      omega
    rw [show escString (c :: cs) = escChar c ++ escString cs from rfl,
      List.append_assoc]
    by_cases h1 : c = backslashC
    · subst h1
      have hred : parseStringBody (f + 1)
          (escChar backslashC ++ (escString cs ++ quoteC :: rest)) =
          (match parseStringBody f (escString cs ++ quoteC :: rest) with
           | some (s2, r3) => some (backslashC :: s2, r3)
           | none => none) := rfl
      rw [hred, ih f rest hcs]
    · by_cases h2 : c = quoteC
      · subst h2
        have hred : parseStringBody (f + 1)
            (escChar quoteC ++ (escString cs ++ quoteC :: rest)) =
            (match parseStringBody f (escString cs ++ quoteC :: rest) with
             | some (s2, r3) => some (quoteC :: s2, r3)
             | none => none) := rfl
        rw [hred, ih f rest hcs]
      · by_cases h3 : c = '\n'
        · subst h3
          have hred : parseStringBody (f + 1)
              (escChar '\n' ++ (escString cs ++ quoteC :: rest)) =
              (match parseStringBody f (escString cs ++ quoteC :: rest) with
               | some (s2, r3) => some ('\n' :: s2, r3)
               | none => none) := rfl
          rw [hred, ih f rest hcs]
        · by_cases h4 : c = '\t'
          · subst h4
            have hred : parseStringBody (f + 1)
                (escChar '\t' ++ (escString cs ++ quoteC :: rest)) =
                (match parseStringBody f (escString cs ++ quoteC :: rest) with
                 | some (s2, r3) => some ('\t' :: s2, r3)
                 | none => none) := rfl
            rw [hred, ih f rest hcs]
          · by_cases h5 : c = '\r'
            · subst h5
              have hred : parseStringBody (f + 1)
                  (escChar '\r' ++ (escString cs ++ quoteC :: rest)) =
                  (match parseStringBody f (escString cs ++ quoteC :: rest) with
                   | some (s2, r3) => some ('\r' :: s2, r3)
                   | none => none) := rfl
              rw [hred, ih f rest hcs]
            · by_cases h6 : c.toNat = 8
              · have hc : c = Char.ofNat 8 := by
                  rw [← Char.ofNat_toNat c, h6]
                subst hc
                have hred : parseStringBody (f + 1)
                    (escChar (Char.ofNat 8) ++ (escString cs ++ quoteC :: rest)) =
                    (match parseStringBody f (escString cs ++ quoteC :: rest) with
                     | some (s2, r3) => some (Char.ofNat 8 :: s2, r3)
                     | none => none) := rfl
                rw [hred, ih f rest hcs]
              · by_cases h7 : c.toNat = 12
                · have hc : c = Char.ofNat 12 := by
                    rw [← Char.ofNat_toNat c, h7]
                  subst hc
                  have hred : parseStringBody (f + 1)
                      (escChar (Char.ofNat 12) ++ (escString cs ++ quoteC :: rest)) =
                      (match parseStringBody f (escString cs ++ quoteC :: rest) with
                       | some (s2, r3) => some (Char.ofNat 12 :: s2, r3)
                       | none => none) := rfl
                  rw [hred, ih f rest hcs]
                · by_cases h8 : c.toNat < 32
                  · have hesc : escChar c = backslashC :: 'u' :: '0' :: '0' ::
                        hexDigit (c.toNat / 16) :: [hexDigit (c.toNat % 16)] := by
                      unfold escChar
                      rw [if_neg h1, if_neg h2, if_neg h3, if_neg h4, if_neg h5,
                        if_neg h6, if_neg h7, if_pos h8]
                    rw [hesc]
                    rw [show (backslashC :: 'u' :: '0' :: '0' ::
                        hexDigit (c.toNat / 16) :: [hexDigit (c.toNat % 16)]) ++
                        (escString cs ++ quoteC :: rest) =
                        backslashC :: 'u' :: '0' :: '0' :: hexDigit (c.toNat / 16) ::
                        hexDigit (c.toNat % 16) ::
                        (escString cs ++ quoteC :: rest) from rfl]
                    have hred : parseStringBody (f + 1) (backslashC :: 'u' :: '0' ::
                        '0' :: hexDigit (c.toNat / 16) :: hexDigit (c.toNat % 16) ::
                        (escString cs ++ quoteC :: rest)) =
                        (match hexVal '0', hexVal '0',
                            hexVal (hexDigit (c.toNat / 16)),
                            hexVal (hexDigit (c.toNat % 16)) with
                         | some a, some b, some c2, some d2 =>
                           (match parseStringBody f (escString cs ++ quoteC :: rest)
                               with
                            | some (s2, r4) =>
                                some (Char.ofNat (4096 * a + 256 * b + 16 * c2 + d2)
                                  :: s2, r4)
                            | none => none)
                         | _, _, _, _ => none) := rfl
                    rw [hred, hexVal_hexDigit (by omega), hexVal_hexDigit (by omega),
                      ih f rest hcs]
                    show some (Char.ofNat (4096 * 0 + 256 * 0 +
                        16 * (c.toNat / 16) + c.toNat % 16) :: cs, rest) =
                      some (c :: cs, rest)
                    have harith : 4096 * 0 + 256 * 0 + 16 * (c.toNat / 16) +
                        c.toNat % 16 = c.toNat := by omega
                    rw [harith, Char.ofNat_toNat]
                  · have hesc : escChar c = [c] := by
                      unfold escChar
                      rw [if_neg h1, if_neg h2, if_neg h3, if_neg h4, if_neg h5,
                        if_neg h6, if_neg h7, if_neg h8]
                    rw [hesc]
                    rw [show ([c] : Str) ++ (escString cs ++ quoteC :: rest) =
                      c :: (escString cs ++ quoteC :: rest) from rfl]
                    rw [parseStringBody_cons, if_neg h2, if_neg h1, if_neg h8,
                      ih f rest hcs]

/-! ### Whitespace and token-head lemmas -/

theorem skipWs_cons_ws {c : Char} (h : jsonWs c = true) (t : Str) :
    skipWs (c :: t) = skipWs t := by
  unfold skipWs
  rw [List.dropWhile_cons, if_pos h]

theorem skipWs_cons_not {c : Char} (h : jsonWs c = false) (t : Str) :
    skipWs (c :: t) = c :: t := by
  unfold skipWs
  rw [List.dropWhile_cons, if_neg (by simp [h])]

theorem skipWs_replicate (n : Nat) (t : Str) :
    skipWs (List.replicate n ' ' ++ t) = skipWs t := by
  induction n with
  | zero => rfl
  | succ k ih =>
    rw [List.replicate_succ, List.cons_append, skipWs_cons_ws (by decide)]
    exact ih

theorem skipWs_indent (d : Nat) (t : Str) :
    skipWs (indentChars d ++ t) = skipWs t := skipWs_replicate _ _

theorem jsonWs_eq_false {c : Char} (h1 : ¬(c = ' ')) (h2 : ¬(c = '\t'))
    (h3 : ¬(c = '\n')) (h4 : ¬(c = '\r')) : jsonWs c = false := by
  unfold jsonWs
  simp [h1, h2, h3, h4]

theorem not_jsonWs_of_isDigit {c : Char} (h : isDigit c = true) :
    jsonWs c = false :=
  jsonWs_eq_false (isDigit_ne h ' ' (by decide)) (isDigit_ne h '\t' (by decide))
    (isDigit_ne h '\n' (by decide)) (isDigit_ne h '\r' (by decide))

theorem dumpsV_head (v : JValue) (d : Nat) :
    ∃ c t, dumpsV v d = c :: t ∧ jsonWs c = false ∧ ¬(c = ']') := by
  cases v with
  | null => exact ⟨'n', _, rfl, by decide, by decide⟩
  | bool b =>
    cases b with
    | true => exact ⟨'t', _, rfl, by decide, by decide⟩
    | false => exact ⟨'f', _, rfl, by decide, by decide⟩
  | num n =>
    show ∃ c t, intChars n = c :: t ∧ _
    unfold intChars
    by_cases hn : n < 0
    · rw [if_pos hn]
      exact ⟨'-', _, rfl, by decide, by decide⟩
    · rw [if_neg hn]
      obtain ⟨c0, cs, hnc⟩ : ∃ c0 cs, natChars n.natAbs = c0 :: cs := by
        cases h : natChars n.natAbs with
        | nil => exact absurd h (natChars_ne_nil _)
        | cons a l => exact ⟨a, l, rfl⟩
      have hd2 : isDigit c0 = true := mem_natChars_isDigit (by rw [hnc]; simp)
      exact ⟨c0, cs, hnc, not_jsonWs_of_isDigit hd2, isDigit_ne hd2 ']' (by decide)⟩
  | str s => exact ⟨quoteC, _, rfl, by decide, by decide⟩
  | arr xs =>
    cases xs with
    | nil => exact ⟨'[', _, rfl, by decide, by decide⟩
    | cons x xs => exact ⟨'[', _, rfl, by decide, by decide⟩
  | obj fs =>
    cases fs with
    | nil => exact ⟨lbraceC, _, rfl, by decide, by decide⟩
    | cons f fs => exact ⟨lbraceC, _, rfl, by decide, by decide⟩

theorem skipWs_dumpsV (v : JValue) (d : Nat) (Y : Str) :
    skipWs (dumpsV v d ++ Y) = dumpsV v d ++ Y := by
  obtain ⟨c, t, hct, hws, _⟩ := dumpsV_head v d
  rw [hct, List.cons_append, skipWs_cons_not hws]

theorem escChar_length_pos (c : Char) : 1 ≤ (escChar c).length := by
  unfold escChar
  split_ifs <;> simp

theorem length_le_escString (s : Str) : s.length ≤ (escString s).length := by
  induction s with
  | nil => simp [escString]
  | cons c cs ih =>
    rw [show escString (c :: cs) = escChar c ++ escString cs from rfl,
      List.length_append, List.length_cons]
    have := escChar_length_pos c
    omega

theorem parseValue_dumpStr (fuel : Nat) (s rest : Str) :
    parseValue (fuel + 1) (dumpStr s ++ rest) = some (.str s, rest) := by
  rw [show dumpStr s ++ rest = quoteC :: (escString s ++ quoteC :: rest) by
    simp [dumpStr]]
  rw [parseValue_cons, if_pos rfl]
  rw [parseStringBody_esc s ((escString s ++ quoteC :: rest).length + 1) rest
    (by have := length_le_escString s; simp only [List.length_append,
      List.length_cons]; omega)]

/-! ### Serialise-then-parse round trip -/

theorem parseStringBody_esc2 (s rest : Str) :
    parseStringBody ((escString s ++ quoteC :: rest).length + 1)
      (escString s ++ quoteC :: rest) = some (s, rest) :=
  parseStringBody_esc s _ rest (by
    have := length_le_escString s
    simp only [List.length_append, List.length_cons]
    omega)

theorem parseItems_succ (fuel : Nat) (s : Str) :
    parseItems (fuel + 1) s =
      (match parseValue fuel s with
      | none => none
      | some (v, r) =>
        match skipWs r with
        | c :: r2 =>
          if c = ',' then
            match parseItems fuel (skipWs r2) with
            | some (vs, r3) => some (v :: vs, r3)
            | none => none
          else if c = ']' then some ([v], r2)
          else none
        | [] => none) := rfl

theorem parseFields_succ (fuel : Nat) (s : Str) :
    parseFields (fuel + 1) s =
      (match s with
      | [] => none
      | c :: r =>
        if c = quoteC then
          match parseStringBody (r.length + 1) r with
          | none => none
          | some (key, r2) =>
            match skipWs r2 with
            | d :: r3 =>
              if d = ':' then
                match parseValue fuel (skipWs r3) with
                | none => none
                | some (v, r4) =>
                  match skipWs r4 with
                  | d2 :: r5 =>
                    if d2 = ',' then
                      match parseFields fuel (skipWs r5) with
                      | some (fs, r6) => some ((key, v) :: fs, r6)
                      | none => none
                    else if d2 = rbraceC then some ([(key, v)], r5)
                    else none
                  | [] => none
              else none
            | [] => none
        else none) := rfl

theorem jfuel_pos (v : JValue) : 1 ≤ jfuel v := by
  cases v <;> simp [jfuel]

theorem jfuelItems_pos (xs : List JValue) : 1 ≤ jfuelItems xs := by
  cases xs with
  | nil => exact Nat.le_refl 1
  | cons a l =>
    show 1 ≤ 1 + jfuel a + jfuelItems l
    omega

theorem jfuelFields_pos (fs : List (Str × JValue)) : 1 ≤ jfuelFields fs := by
  cases fs with
  | nil => exact Nat.le_refl 1
  | cons a l =>
    show 1 ≤ 1 + jfuel a.2 + jfuelFields l
    omega

theorem dumpsItems_head (xs : List JValue) (hne : xs ≠ []) (d : Nat) :
    ∃ c t, dumpsItems xs d = c :: t ∧ jsonWs c = false ∧ ¬(c = ']') := by
  cases xs with
  | nil => exact absurd rfl hne
  | cons x xs2 =>
    obtain ⟨c, t, hct, h1, h2⟩ := dumpsV_head x d
    cases xs2 with
    | nil => exact ⟨c, t, hct, h1, h2⟩
    | cons y ys =>
      refine ⟨c, t ++ (',' :: '\n' :: (indentChars d ++ dumpsItems (y :: ys) d)),
        ?_, h1, h2⟩
      show dumpsV x d ++ ',' :: '\n' :: indentChars d ++ dumpsItems (y :: ys) d = _
      rw [hct]
      simp [List.append_assoc]

theorem skipWs_dumpsItems (xs : List JValue) (hne : xs ≠ []) (d : Nat) (Y : Str) :
    skipWs (dumpsItems xs d ++ Y) = dumpsItems xs d ++ Y := by
  obtain ⟨c, t, hct, hws, _⟩ := dumpsItems_head xs hne d
  rw [hct, List.cons_append, skipWs_cons_not hws]

theorem dumpsFields_head (fs : List (Str × JValue)) (hne : fs ≠ []) (d : Nat) :
    ∃ t, dumpsFields fs d = quoteC :: t := by
  cases fs with
  | nil => exact absurd rfl hne
  | cons f fs2 =>
    cases fs2 with
    | nil =>
      refine ⟨escString f.1 ++ [quoteC] ++ (':' :: ' ' :: dumpsV f.2 d), ?_⟩
      show dumpStr f.1 ++ ':' :: ' ' :: dumpsV f.2 d = _
      simp [dumpStr, List.append_assoc]
    | cons g gs =>
      refine ⟨escString f.1 ++ [quoteC] ++ (':' :: ' ' :: dumpsV f.2 d ++
        (',' :: '\n' :: (indentChars d ++ dumpsFields (g :: gs) d))), ?_⟩
      show dumpStr f.1 ++ ':' :: ' ' :: dumpsV f.2 d ++
        ',' :: '\n' :: indentChars d ++ dumpsFields (g :: gs) d = _
      simp [dumpStr, List.append_assoc]

theorem skipWs_dumpsFields (fs : List (Str × JValue)) (hne : fs ≠ [])
    (d : Nat) (Y : Str) :
    skipWs (dumpsFields fs d ++ Y) = dumpsFields fs d ++ Y := by
  obtain ⟨t, ht⟩ := dumpsFields_head fs hne d
  rw [ht, List.cons_append, skipWs_cons_not (by decide)]

theorem roundtrip_fuel : ∀ fuel : Nat,
    (∀ v d rest, jfuel v ≤ fuel → digitStart rest = false →
      parseValue fuel (dumpsV v d ++ rest) = some (v, rest)) ∧
    (∀ xs d dp rest, xs ≠ [] → jfuelItems xs ≤ fuel →
      parseItems fuel (dumpsItems xs d ++ '\n' :: (indentChars dp ++ ']' :: rest)) =
        some (xs, rest)) ∧
    (∀ fs d dp rest, fs ≠ [] → jfuelFields fs ≤ fuel →
      parseFields fuel
          (dumpsFields fs d ++ '\n' :: (indentChars dp ++ rbraceC :: rest)) =
        some (fs, rest)) := by
  intro fuel
  induction fuel with
  | zero =>
    refine ⟨?_, ?_, ?_⟩
    · intro v d rest hj _
      exact absurd hj (by have := jfuel_pos v; omega)
    · intro xs d dp rest hne hj
      exact absurd hj (by have := jfuelItems_pos xs; omega)
    · intro fs d dp rest hne hj
      exact absurd hj (by have := jfuelFields_pos fs; omega)
  | succ f ih =>
    obtain ⟨ihV, ihI, ihF⟩ := ih
    refine ⟨?_, ?_, ?_⟩
    · intro v d rest hj hrest
      cases v with
      | null => rfl
      | bool b => cases b <;> rfl
      | num n => exact parseValue_intChars n hrest
      | str s => exact parseValue_dumpStr f s rest
      | arr xs =>
        cases xs with
        | nil => rfl
        | cons x xs2 =>
          have hj2 : jfuelItems (x :: xs2) ≤ f := by
            have h1 : jfuel (.arr (x :: xs2)) = 1 + jfuelItems (x :: xs2) := rfl
            omega
          have hshape : dumpsV (.arr (x :: xs2)) d ++ rest =
              '[' :: ('\n' :: (indentChars (d + 1) ++ (dumpsItems (x :: xs2) (d + 1)
                ++ ('\n' :: (indentChars d ++ (']' :: rest)))))) := by
            show ('[' :: '\n' :: indentChars (d + 1) ++ dumpsItems (x :: xs2) (d + 1)
              ++ '\n' :: indentChars d ++ [']']) ++ rest = _
            simp [List.append_assoc]
          rw [hshape, parseValue_cons]
          rw [if_neg (by decide), if_neg (by decide), if_neg (by decide),
            if_neg (by decide), if_neg (by decide), if_neg (by decide), if_pos rfl]
          have hskip : skipWs ('\n' :: (indentChars (d + 1) ++
              (dumpsItems (x :: xs2) (d + 1) ++
                ('\n' :: (indentChars d ++ (']' :: rest)))))) =
              dumpsItems (x :: xs2) (d + 1) ++
                ('\n' :: (indentChars d ++ (']' :: rest))) := by
            rw [skipWs_cons_ws (by decide), skipWs_indent]
            exact skipWs_dumpsItems _ (by simp) _ _
          obtain ⟨c0, t0, hct, hws0, hne0⟩ :=
            dumpsItems_head (x :: xs2) (by simp) (d + 1)
          have hcons : dumpsItems (x :: xs2) (d + 1) ++
              ('\n' :: (indentChars d ++ (']' :: rest))) =
              c0 :: (t0 ++ ('\n' :: (indentChars d ++ (']' :: rest)))) := by
            rw [hct, List.cons_append]
          rw [hskip, hcons]
          dsimp only []
          rw [if_neg hne0, ← hcons, ihI (x :: xs2) (d + 1) d rest (by simp) hj2]
      | obj fs =>
        cases fs with
        | nil => rfl
        | cons f0 fs2 =>
          have hj2 : jfuelFields (f0 :: fs2) ≤ f := by
            have h1 : jfuel (.obj (f0 :: fs2)) = 1 + jfuelFields (f0 :: fs2) := rfl
            omega
          have hshape : dumpsV (.obj (f0 :: fs2)) d ++ rest =
              lbraceC :: ('\n' :: (indentChars (d + 1) ++
                (dumpsFields (f0 :: fs2) (d + 1) ++
                  ('\n' :: (indentChars d ++ (rbraceC :: rest)))))) := by
            show (lbraceC :: '\n' :: indentChars (d + 1) ++
              dumpsFields (f0 :: fs2) (d + 1) ++ '\n' :: indentChars d ++ [rbraceC])
              ++ rest = _
            simp [List.append_assoc]
          rw [hshape, parseValue_cons]
          rw [if_neg (by decide), if_neg (by decide), if_neg (by decide),
            if_neg (by decide), if_neg (by decide), if_neg (by decide),
            if_neg (by decide), if_pos rfl]
          have hskip : skipWs ('\n' :: (indentChars (d + 1) ++
              (dumpsFields (f0 :: fs2) (d + 1) ++
                ('\n' :: (indentChars d ++ (rbraceC :: rest)))))) =
              dumpsFields (f0 :: fs2) (d + 1) ++
                ('\n' :: (indentChars d ++ (rbraceC :: rest))) := by
            rw [skipWs_cons_ws (by decide), skipWs_indent]
            exact skipWs_dumpsFields _ (by simp) _ _
          obtain ⟨t0, hq⟩ := dumpsFields_head (f0 :: fs2) (by simp) (d + 1)
          have hcons : dumpsFields (f0 :: fs2) (d + 1) ++
              ('\n' :: (indentChars d ++ (rbraceC :: rest))) =
              quoteC :: (t0 ++ ('\n' :: (indentChars d ++ (rbraceC :: rest)))) := by
            rw [hq, List.cons_append]
          rw [hskip, hcons]
          dsimp only []
          rw [if_neg (by decide), ← hcons,
            ihF (f0 :: fs2) (d + 1) d rest (by simp) hj2]
    · intro xs d dp rest hne hj
      cases xs with
      | nil => exact absurd rfl hne
      | cons x xs2 =>
        cases xs2 with
        | nil =>
          have hj2 : jfuel x ≤ f := by
            have h1 : jfuelItems [x] = 1 + jfuel x + 1 := rfl
            omega
          rw [parseItems_succ,
            show dumpsItems [x] d ++ '\n' :: (indentChars dp ++ ']' :: rest) =
              dumpsV x d ++ ('\n' :: (indentChars dp ++ (']' :: rest))) from rfl,
            ihV x d _ hj2 (by rfl)]
          dsimp only []
          rw [skipWs_cons_ws (by decide), skipWs_indent,
            skipWs_cons_not (by decide)]
          dsimp only []
          rw [if_neg (by decide), if_pos rfl]
        | cons y ys =>
          have hj2 : jfuel x ≤ f ∧ jfuelItems (y :: ys) ≤ f := by
            have h1 : jfuelItems (x :: y :: ys) = 1 + jfuel x + jfuelItems (y :: ys) :=
              rfl
            have h2 := jfuelItems_pos (y :: ys)
            have h3 := jfuel_pos x
            omega
          have hshape : dumpsItems (x :: y :: ys) d ++
              '\n' :: (indentChars dp ++ ']' :: rest) =
              dumpsV x d ++ (',' :: ('\n' :: (indentChars d ++
                (dumpsItems (y :: ys) d ++
                  ('\n' :: (indentChars dp ++ (']' :: rest))))))) := by
            show (dumpsV x d ++ ',' :: '\n' :: indentChars d ++
              dumpsItems (y :: ys) d) ++ '\n' :: (indentChars dp ++ ']' :: rest)
              = _
            simp [List.append_assoc]
          rw [parseItems_succ, hshape, ihV x d _ hj2.1 (by rfl)]
          dsimp only []
          rw [skipWs_cons_not (by decide)]
          dsimp only []
          rw [if_pos rfl]
          rw [skipWs_cons_ws (by decide), skipWs_indent,
            skipWs_dumpsItems _ (by simp) _ _,
            ihI (y :: ys) d dp rest (by simp) hj2.2]
    · intro fs d dp rest hne hj
      cases fs with
      | nil => exact absurd rfl hne
      | cons f0 fs2 =>
        obtain ⟨k, v⟩ := f0
        cases fs2 with
        | nil =>
          have hjv : jfuel v ≤ f := by
            have h1 : jfuelFields [(k, v)] = 1 + jfuel v + 1 := rfl
            omega
          have hshape : dumpsFields [(k, v)] d ++
              '\n' :: (indentChars dp ++ rbraceC :: rest) =
              quoteC :: (escString k ++ quoteC :: (':' :: (' ' ::
                (dumpsV v d ++ ('\n' :: (indentChars dp ++ (rbraceC :: rest))))))) := by
            show (dumpStr k ++ ':' :: ' ' :: dumpsV v d) ++
              '\n' :: (indentChars dp ++ rbraceC :: rest) = _
            simp [dumpStr, List.append_assoc]
          rw [parseFields_succ, hshape]
          dsimp only []
          rw [if_pos rfl, parseStringBody_esc2]
          dsimp only []
          rw [skipWs_cons_not (by decide)]
          dsimp only []
          rw [if_pos rfl]
          rw [skipWs_cons_ws (by decide), skipWs_dumpsV, ihV v d _ hjv (by rfl)]
          dsimp only []
          rw [skipWs_cons_ws (by decide), skipWs_indent,
            skipWs_cons_not (by decide)]
          dsimp only []
          rw [if_neg (by decide), if_pos rfl]
        | cons g gs =>
          have hjs : jfuel v ≤ f ∧ jfuelFields (g :: gs) ≤ f := by
            have h1 : jfuelFields ((k, v) :: g :: gs) =
              1 + jfuel v + jfuelFields (g :: gs) := rfl
            have h2 := jfuelFields_pos (g :: gs)
            have h3 := jfuel_pos v
            omega
          have hshape : dumpsFields ((k, v) :: g :: gs) d ++
              '\n' :: (indentChars dp ++ rbraceC :: rest) =
              quoteC :: (escString k ++ quoteC :: (':' :: (' ' ::
                (dumpsV v d ++ (',' :: ('\n' :: (indentChars d ++
                  (dumpsFields (g :: gs) d ++
                    ('\n' :: (indentChars dp ++ (rbraceC :: rest))))))))))) := by
            show (dumpStr k ++ ':' :: ' ' :: dumpsV v d ++
              ',' :: '\n' :: indentChars d ++ dumpsFields (g :: gs) d) ++
              '\n' :: (indentChars dp ++ rbraceC :: rest) = _
            simp [dumpStr, List.append_assoc]
          rw [parseFields_succ, hshape]
          dsimp only []
          rw [if_pos rfl, parseStringBody_esc2]
          dsimp only []
          rw [skipWs_cons_not (by decide)]
          dsimp only []
          rw [if_pos rfl]
          rw [skipWs_cons_ws (by decide), skipWs_dumpsV, ihV v d _ hjs.1 (by rfl)]
          dsimp only []
          rw [skipWs_cons_not (by decide)]
          dsimp only []
          rw [if_pos rfl]
          rw [skipWs_cons_ws (by decide), skipWs_indent,
            skipWs_dumpsFields _ (by simp) _ _,
            ihF (g :: gs) d dp rest (by simp) hjs.2]

theorem indentChars_length (d : Nat) : (indentChars d).length = 2 * d :=
  List.length_replicate _ _

theorem jfuel_le_fuel : ∀ n : Nat,
    (∀ v d, jfuel v ≤ n → jfuel v ≤ (dumpsV v d).length + 1) ∧
    (∀ xs d, jfuelItems xs ≤ n → jfuelItems xs ≤ (dumpsItems xs d).length + 3) ∧
    (∀ fs d, jfuelFields fs ≤ n →
      jfuelFields fs ≤ (dumpsFields fs d).length + 3) := by
  intro n
  induction n with
  | zero =>
    refine ⟨?_, ?_, ?_⟩
    · intro v d hj
      exact absurd hj (by have := jfuel_pos v; omega)
    · intro xs d hj
      exact absurd hj (by have := jfuelItems_pos xs; omega)
    · intro fs d hj
      exact absurd hj (by have := jfuelFields_pos fs; omega)
  | succ m ih =>
    obtain ⟨ihV, ihI, ihF⟩ := ih
    refine ⟨?_, ?_, ?_⟩
    · intro v d hj
      cases v with
      | null =>
        have h1 : jfuel .null = 1 := rfl
        have h2 : (dumpsV .null d).length = 4 := rfl
        omega
      | bool b =>
        cases b with
        | true =>
          have h1 : jfuel (.bool true) = 1 := rfl
          have h2 : (dumpsV (.bool true) d).length = 4 := rfl
          omega
        | false =>
          have h1 : jfuel (.bool false) = 1 := rfl
          have h2 : (dumpsV (.bool false) d).length = 5 := rfl
          omega
      | num nn =>
        have h1 : jfuel (.num nn) = 1 := rfl
        omega
      | str s =>
        have h1 : jfuel (.str s) = 1 := rfl
        omega
      | arr xs =>
        cases xs with
        | nil =>
          have h1 : jfuel (.arr []) = 2 := rfl
          have h2 : (dumpsV (.arr []) d).length = 2 := rfl
          omega
        | cons x xs2 =>
          have h1 : jfuel (.arr (x :: xs2)) = 1 + jfuelItems (x :: xs2) := rfl
          have hI := ihI (x :: xs2) (d + 1) (by
            have := jfuelItems_pos (x :: xs2)
            omega)
          have hlen : (dumpsV (.arr (x :: xs2)) d).length =
              (dumpsItems (x :: xs2) (d + 1)).length + 2 * (d + 1) + 2 * d + 4 := by
            show ('[' :: '\n' :: indentChars (d + 1) ++
              dumpsItems (x :: xs2) (d + 1) ++ '\n' :: indentChars d ++
              [']']).length = _
            simp only [List.length_append, List.length_cons, indentChars_length,
              List.length_nil]
            omega
          omega
      | obj fs =>
        cases fs with
        | nil =>
          have h1 : jfuel (.obj []) = 2 := rfl
          have h2 : (dumpsV (.obj []) d).length = 2 := rfl
          omega
        | cons f0 fs2 =>
          have h1 : jfuel (.obj (f0 :: fs2)) = 1 + jfuelFields (f0 :: fs2) := rfl
          have hF := ihF (f0 :: fs2) (d + 1) (by
            have := jfuelFields_pos (f0 :: fs2)
            omega)
          have hlen : (dumpsV (.obj (f0 :: fs2)) d).length =
              (dumpsFields (f0 :: fs2) (d + 1)).length + 2 * (d + 1) + 2 * d + 4 := by
            show (lbraceC :: '\n' :: indentChars (d + 1) ++
              dumpsFields (f0 :: fs2) (d + 1) ++ '\n' :: indentChars d ++
              [rbraceC]).length = _
            simp only [List.length_append, List.length_cons, indentChars_length,
              List.length_nil]
            omega
          omega
    · intro xs d hj
      cases xs with
      | nil =>
        have h1 : jfuelItems ([] : List JValue) = 1 := rfl
        omega
      | cons x xs2 =>
        cases xs2 with
        | nil =>
          have h1 : jfuelItems [x] = 1 + jfuel x + 1 := rfl
          have h2 : (dumpsItems [x] d).length = (dumpsV x d).length := rfl
          have hV := ihV x d (by have := jfuel_pos x; omega)
          omega
        | cons y ys =>
          have h1 : jfuelItems (x :: y :: ys) =
            1 + jfuel x + jfuelItems (y :: ys) := rfl
          have hV := ihV x d (by
            have := jfuel_pos x
            have := jfuelItems_pos (y :: ys)
            omega)
          have hI := ihI (y :: ys) d (by
            have := jfuel_pos x
            have := jfuelItems_pos (y :: ys)
            omega)
          have hlen : (dumpsItems (x :: y :: ys) d).length =
              (dumpsV x d).length + 2 * d + 2 + (dumpsItems (y :: ys) d).length := by
            show ((dumpsV x d ++ ',' :: '\n' :: indentChars d ++
              dumpsItems (y :: ys) d)).length = _
            simp only [List.length_append, List.length_cons, indentChars_length]
            omega
          omega
    · intro fs d hj
      cases fs with
      | nil =>
        have h1 : jfuelFields ([] : List (Str × JValue)) = 1 := rfl
        omega
      | cons f0 fs2 =>
        cases fs2 with
        | nil =>
          have h1 : jfuelFields [f0] = 1 + jfuel f0.2 + 1 := rfl
          have h2 : (dumpsFields [f0] d).length =
              (dumpStr f0.1).length + 2 + (dumpsV f0.2 d).length := by
            show (dumpStr f0.1 ++ ':' :: ' ' :: dumpsV f0.2 d).length = _
            simp only [List.length_append, List.length_cons]
            omega
          have hV := ihV f0.2 d (by have := jfuel_pos f0.2; omega)
          omega
        | cons g gs =>
          have h1 : jfuelFields (f0 :: g :: gs) =
            1 + jfuel f0.2 + jfuelFields (g :: gs) := rfl
          have hV := ihV f0.2 d (by
            have := jfuel_pos f0.2
            have := jfuelFields_pos (g :: gs)
            omega)
          have hF := ihF (g :: gs) d (by
            have := jfuel_pos f0.2
            have := jfuelFields_pos (g :: gs)
            omega)
          have hlen : (dumpsFields (f0 :: g :: gs) d).length =
              (dumpStr f0.1).length + 2 + (dumpsV f0.2 d).length + 2 * d + 2 +
                (dumpsFields (g :: gs) d).length := by
            show (dumpStr f0.1 ++ ':' :: ' ' :: dumpsV f0.2 d ++
              ',' :: '\n' :: indentChars d ++ dumpsFields (g :: gs) d).length = _
            simp only [List.length_append, List.length_cons, indentChars_length]
            omega
          omega

theorem jfuel_le (v : JValue) (d : Nat) : jfuel v ≤ (dumpsV v d).length + 1 :=
  (jfuel_le_fuel (jfuel v)).1 v d (Nat.le_refl _)

/-- Serialising any value with `json.dump(..., ensure_ascii=False, indent=2)`
and reading the text back with `json.loads` recovers exactly the value. -/
theorem json_loads_dumps (v : JValue) : json_loads (dumpsV v 0) = some v := by
  unfold json_loads
  have hskip : skipWs (dumpsV v 0) = dumpsV v 0 := by
    have h := skipWs_dumpsV v 0 []
    rwa [List.append_nil] at h
  rw [hskip]
  obtain ⟨P, _, _⟩ := roundtrip_fuel ((dumpsV v 0).length + 1)
  have hp : parseValue ((dumpsV v 0).length + 1) (dumpsV v 0 ++ []) =
      some (v, []) := P v 0 [] (jfuel_le v 0) rfl
  rw [List.append_nil] at hp
  rw [hp]
  rfl

/-! ### Loop step lemmas -/

theorem countsGet_countsIncr_self (m : List (Str × Nat)) (k : Str) :
    countsGet (countsIncr m k) k = countsGet m k + 1 := by
  induction m with
  | nil => simp [countsIncr, countsGet]
  | cons e rest ih =>
    by_cases he : e.1 = k
    · unfold countsIncr
      rw [if_pos he]
      unfold countsGet
      rw [if_pos he, if_pos he]
    · unfold countsIncr
      rw [if_neg he]
      unfold countsGet
      rw [if_neg he, if_neg he]
      exact ih

theorem countsGet_countsIncr_ne (m : List (Str × Nat)) {k k2 : Str}
    (h : ¬(k = k2)) : countsGet (countsIncr m k) k2 = countsGet m k2 := by
  induction m with
  | nil => simp [countsIncr, countsGet, h]
  | cons e rest ih =>
    by_cases he : e.1 = k
    · unfold countsIncr
      rw [if_pos he]
      unfold countsGet
      have : ¬(e.1 = k2) := by rw [he]; exact h
      rw [if_neg this, if_neg this]
    · unfold countsIncr
      rw [if_neg he]
      unfold countsGet
      by_cases he2 : e.1 = k2
      · rw [if_pos he2, if_pos he2]
      · rw [if_neg he2, if_neg he2]
        exact ih

theorem stepEntry_obj (counts : List (Str × Nat)) (fs : List (Str × JValue)) :
    stepEntry counts (.obj fs) =
      (let title := (lookupA fs titleKey).getD .null
       if truthy title then
         match title with
         | .str t =>
           (⟨countsIncr counts (sanitise_filename t),
             [(nameFor (sanitise_filename t)
                 (countsGet counts (sanitise_filename t)),
               dumpsV (.obj fs) 0)], none⟩ : RunResult)
         | _ => ⟨counts, [], some .typeError⟩
       else ⟨counts, [], none⟩) := rfl

theorem entryTitle_obj {fs : List (Str × JValue)} {t : Str}
    (hl : lookupA fs titleKey = some (.str t)) :
    entryTitle (.obj fs) = t := by
  unfold entryTitle
  dsimp only []
  rw [hl]

theorem goodEntry_obj {e : JValue} (h : goodEntry e = true) :
    ∃ fs t, e = .obj fs ∧ lookupA fs titleKey = some (.str t) ∧
      (!t.isEmpty) = true := by
  cases e with
  | obj fs =>
    unfold goodEntry at h
    dsimp only [] at h
    cases hl : lookupA fs titleKey with
    | none => rw [hl] at h; exact absurd h (by simp)
    | some tv =>
      cases tv with
      | str t => exact ⟨fs, t, rfl, hl, by rw [hl] at h; exact h⟩
      | null => rw [hl] at h; exact absurd h (by simp)
      | bool b => rw [hl] at h; exact absurd h (by simp)
      | num n => rw [hl] at h; exact absurd h (by simp)
      | arr xs => rw [hl] at h; exact absurd h (by simp)
      | obj fs2 => rw [hl] at h; exact absurd h (by simp)
  | null => exact absurd h (by simp [goodEntry])
  | bool b => exact absurd h (by simp [goodEntry])
  | num n => exact absurd h (by simp [goodEntry])
  | str s => exact absurd h (by simp [goodEntry])
  | arr xs => exact absurd h (by simp [goodEntry])

theorem stepEntry_good {e : JValue} (h : goodEntry e = true)
    (counts : List (Str × Nat)) :
    stepEntry counts e =
      ⟨countsIncr counts (sanitise_filename (entryTitle e)),
        [(nameFor (sanitise_filename (entryTitle e))
            (countsGet counts (sanitise_filename (entryTitle e))),
          dumpsV e 0)], none⟩ := by
  obtain ⟨fs, t, rfl, hl, ht⟩ := goodEntry_obj h
  rw [stepEntry_obj, hl]
  simp only [Option.getD_some]
  rw [if_pos (show truthy (JValue.str t) = true from ht)]
  rw [entryTitle_obj hl]

theorem stepEntry_skip {fs : List (Str × JValue)}
    (h : truthy ((lookupA fs titleKey).getD .null) = false)
    (counts : List (Str × Nat)) :
    stepEntry counts (.obj fs) = ⟨counts, [], none⟩ := by
  rw [stepEntry_obj]
  dsimp only []
  rw [if_neg (by simp [h])]

theorem splitLoop_cons (counts : List (Str × Nat)) (e : JValue)
    (rest : List JValue) :
    splitLoop counts (e :: rest) =
      (let s := stepEntry counts e
       match s.err with
       | some er => (⟨s.counts, s.writes, some er⟩ : RunResult)
       | none =>
         let r := splitLoop s.counts rest
         ⟨r.counts, s.writes ++ r.writes, r.err⟩) := rfl

theorem splitLoop_good_spec (es : List JValue) : ∀ counts : List (Str × Nat),
    (∀ e ∈ es, goodEntry e = true) →
    (splitLoop counts es).err = none ∧
    (splitLoop counts es).writes.length = es.length ∧
    (∀ i e, es[i]? = some e →
      (splitLoop counts es).writes[i]? =
        some (nameFor (sanitise_filename (entryTitle e))
          (countsGet counts (sanitise_filename (entryTitle e)) +
            countStr ((es.take i).map (fun e2 => sanitise_filename (entryTitle e2)))
              (sanitise_filename (entryTitle e))),
          dumpsV e 0)) ∧
    (∀ st, countsGet (splitLoop counts es).counts st =
      countsGet counts st +
        countStr (es.map (fun e2 => sanitise_filename (entryTitle e2))) st) := by
  induction es with
  | nil =>
    intro counts _
    refine ⟨rfl, rfl, ?_, ?_⟩
    · intro i e he
      simp at he
    · intro st
      show countsGet counts st = countsGet counts st + countStr [] st
      show countsGet counts st = countsGet counts st + 0
      rfl
  | cons e0 es2 ih =>
    intro counts hall
    have hg0 : goodEntry e0 = true := hall e0 (List.mem_cons_self e0 es2)
    have hrest : ∀ e ∈ es2, goodEntry e = true :=
      fun e he => hall e (List.mem_cons_of_mem e0 he)
    obtain ⟨iherr, ihlen, ihpos, ihcnt⟩ :=
      ih (countsIncr counts (sanitise_filename (entryTitle e0))) hrest
    rw [splitLoop_cons, stepEntry_good hg0]
    dsimp only []
    refine ⟨iherr, ?_, ?_, ?_⟩
    · simp only [List.length_cons, List.length_append, List.length_cons,
        List.length_nil]
      rw [ihlen]
      omega
    · intro i e he
      cases i with
      | zero =>
        simp only [List.getElem?_cons_zero, Option.some.injEq] at he
        subst he
        simp only [List.singleton_append, List.getElem?_cons_zero]
        rfl
      | succ j =>
        simp only [List.getElem?_cons_succ] at he
        have hpos := ihpos j e he
        show ((_ :: (splitLoop _ es2).writes))[j + 1]? = _
        rw [List.getElem?_cons_succ, hpos]
        have hcount : countsGet (countsIncr counts
              (sanitise_filename (entryTitle e0)))
              (sanitise_filename (entryTitle e)) +
            countStr ((es2.take j).map
              (fun e2 => sanitise_filename (entryTitle e2)))
              (sanitise_filename (entryTitle e)) =
            countsGet counts (sanitise_filename (entryTitle e)) +
            countStr (((e0 :: es2).take (j + 1)).map
              (fun e2 => sanitise_filename (entryTitle e2)))
              (sanitise_filename (entryTitle e)) := by
          rw [show (e0 :: es2).take (j + 1) = e0 :: es2.take j from rfl]
          rw [show (e0 :: es2.take j).map
              (fun e2 => sanitise_filename (entryTitle e2)) =
            sanitise_filename (entryTitle e0) ::
              (es2.take j).map (fun e2 => sanitise_filename (entryTitle e2))
            from rfl]
          rw [show countStr (sanitise_filename (entryTitle e0) ::
              (es2.take j).map (fun e2 => sanitise_filename (entryTitle e2)))
              (sanitise_filename (entryTitle e)) =
            (if sanitise_filename (entryTitle e0) =
                sanitise_filename (entryTitle e) then 1 else 0) +
              countStr ((es2.take j).map
                (fun e2 => sanitise_filename (entryTitle e2)))
                (sanitise_filename (entryTitle e)) from rfl]
          by_cases hst : sanitise_filename (entryTitle e0) =
              sanitise_filename (entryTitle e)
          · rw [hst, countsGet_countsIncr_self, if_pos rfl]
            omega
          · rw [countsGet_countsIncr_ne _ hst, if_neg hst]
            omega
        rw [hcount]
    · intro st
      have hcnt := ihcnt st
      show countsGet (splitLoop _ es2).counts st = _
      rw [hcnt]
      rw [show ((e0 :: es2).map (fun e2 => sanitise_filename (entryTitle e2))) =
        sanitise_filename (entryTitle e0) ::
          es2.map (fun e2 => sanitise_filename (entryTitle e2)) from rfl]
      rw [show countStr (sanitise_filename (entryTitle e0) ::
          es2.map (fun e2 => sanitise_filename (entryTitle e2))) st =
        (if sanitise_filename (entryTitle e0) = st then 1 else 0) +
          countStr (es2.map (fun e2 => sanitise_filename (entryTitle e2))) st
        from rfl]
      by_cases hst : sanitise_filename (entryTitle e0) = st
      · rw [hst, countsGet_countsIncr_self, if_pos rfl]
        omega
      · rw [countsGet_countsIncr_ne _ hst, if_neg hst]
        omega

theorem splitLoop_skip_middle {fs : List (Str × JValue)}
    (h : truthy ((lookupA fs titleKey).getD .null) = false) :
    ∀ (p : List JValue) (counts : List (Str × Nat)) (q : List JValue),
      splitLoop counts (p ++ .obj fs :: q) = splitLoop counts (p ++ q) := by
  intro p
  induction p with
  | nil =>
    intro counts q
    rw [List.nil_append, List.nil_append, splitLoop_cons, stepEntry_skip h]
    dsimp only []
    rw [List.nil_append]
  | cons a p2 ih =>
    intro counts q
    rw [List.cons_append, List.cons_append, splitLoop_cons, splitLoop_cons]
    dsimp only []
    cases herr : (stepEntry counts a).err with
    | some er => rfl
    | none => rw [ih]

theorem wfEntry_cases {e : JValue} (h : wfEntry e = true) :
    goodEntry e = true ∨
      ∃ fs, e = .obj fs ∧ truthy ((lookupA fs titleKey).getD .null) = false := by
  cases e with
  | obj fs =>
    unfold wfEntry at h
    dsimp only [] at h
    cases hl : lookupA fs titleKey with
    | none =>
      right
      exact ⟨fs, rfl, by rw [hl]; rfl⟩
    | some tv =>
      rw [hl] at h
      simp only [Option.getD_some] at h
      cases tv with
      | str t =>
        by_cases hte : t.isEmpty
        · right
          refine ⟨fs, rfl, ?_⟩
          rw [hl]
          simp only [Option.getD_some]
          show (!t.isEmpty) = false
          rw [hte]
          rfl
        · left
          unfold goodEntry
          dsimp only []
          rw [hl]
          simp [hte]
      | null =>
        right
        exact ⟨fs, rfl, by rw [hl]; rfl⟩
      | bool b =>
        right
        refine ⟨fs, rfl, ?_⟩
        rw [hl]
        simp only [Option.getD_some]
        cases b with
        | false => rfl
        | true => exact absurd h (by decide)
      | num n =>
        right
        refine ⟨fs, rfl, ?_⟩
        rw [hl]
        simp only [Option.getD_some]
        show (n != 0) = false
        have hb : (!(n != 0)) = true := h
        simp only [Bool.not_eq_true'] at hb
        exact hb
      | arr xs =>
        right
        refine ⟨fs, rfl, ?_⟩
        rw [hl]
        simp only [Option.getD_some]
        show (!xs.isEmpty) = false
        have hb : (!(!xs.isEmpty)) = true := h
        simp only [Bool.not_eq_true'] at hb
        exact hb
      | obj fs2 =>
        right
        refine ⟨fs, rfl, ?_⟩
        rw [hl]
        simp only [Option.getD_some]
        show (!fs2.isEmpty) = false
        have hb : (!(!fs2.isEmpty)) = true := h
        simp only [Bool.not_eq_true'] at hb
        exact hb
  | null => exact absurd h (by simp [wfEntry])
  | bool b => exact absurd h (by simp [wfEntry])
  | num n => exact absurd h (by simp [wfEntry])
  | str s => exact absurd h (by simp [wfEntry])
  | arr xs => exact absurd h (by simp [wfEntry])

theorem goodEntry_not_skip {fs : List (Str × JValue)}
    (h : truthy ((lookupA fs titleKey).getD .null) = false) :
    goodEntry (.obj fs) = false := by
  cases hg : goodEntry (.obj fs) with
  | false => rfl
  | true =>
    obtain ⟨fs2, t, heq, hl, ht⟩ := goodEntry_obj hg
    injection heq with hfs
    subst hfs
    rw [hl] at h
    simp only [Option.getD_some] at h
    have : truthy (JValue.str t) = true := ht
    rw [this] at h
    exact absurd h (by decide)

theorem splitLoop_wf_filter (es : List JValue) : ∀ counts : List (Str × Nat),
    (∀ e ∈ es, wfEntry e = true) →
    splitLoop counts es = splitLoop counts (es.filter goodEntry) := by
  induction es with
  | nil => intro counts _; rfl
  | cons e0 es2 ih =>
    intro counts hall
    have h0 := hall e0 (List.mem_cons_self e0 es2)
    have hrest : ∀ e ∈ es2, wfEntry e = true :=
      fun e he => hall e (List.mem_cons_of_mem e0 he)
    cases wfEntry_cases h0 with
    | inl hg =>
      rw [List.filter_cons_of_pos hg, splitLoop_cons, splitLoop_cons,
        stepEntry_good hg]
      dsimp only []
      rw [ih _ hrest]
    | inr hsk =>
      obtain ⟨fs, rfl, hf⟩ := hsk
      rw [List.filter_cons_of_neg (by simp [goodEntry_not_skip hf])]
      have hmid := splitLoop_skip_middle hf [] counts es2
      rw [List.nil_append, List.nil_append] at hmid
      rw [hmid]
      exact ih _ hrest

/-! ### Counting and filename lemmas -/

theorem countStr_append (a b : List Str) (x : Str) :
    countStr (a ++ b) x = countStr a x + countStr b x := by
  induction a with
  | nil =>
    show countStr b x = 0 + countStr b x
    omega
  | cons s rest ih =>
    show (if s = x then 1 else 0) + countStr (rest ++ b) x = _
    rw [ih]
    show _ = (if s = x then 1 else 0) + countStr rest x + countStr b x
    omega

theorem countStr_take_succ {ts : List Str} {i : Nat} {x : Str}
    (h : ts[i]? = some x) :
    countStr (ts.take (i + 1)) x = countStr (ts.take i) x + 1 := by
  rw [List.take_succ, h]
  rw [countStr_append]
  show _ + ((if x = x then 1 else 0) + 0) = _
  rw [if_pos rfl]

theorem countStr_take_le (ts : List Str) (x : Str) :
    ∀ i j, i ≤ j → countStr (ts.take i) x ≤ countStr (ts.take j) x := by
  intro i j hij
  have hdecomp : ts.take j = ts.take i ++ (ts.drop i).take (j - i) := by
    rw [← List.take_add]
    congr 1
    omega
  rw [hdecomp, countStr_append]
  omega

theorem countStr_take_lt {ts : List Str} {i j : Nat} {x : Str}
    (hij : i < j) (h : ts[i]? = some x) :
    countStr (ts.take i) x < countStr (ts.take j) x := by
  have h1 := countStr_take_succ h
  have h2 := countStr_take_le ts x (i + 1) j hij
  omega

theorem nameFor_inj {st : Str} {k1 k2 : Nat} (h : nameFor st k1 = nameFor st k2) :
    k1 = k2 := by
  unfold nameFor at h
  by_cases h1 : k1 > 0 <;> by_cases h2 : k2 > 0
  · rw [if_pos h1, if_pos h2] at h
    have h3 := List.append_cancel_left h
    injection h3 with _ h4
    have p1 : parseDigits (natChars k1 ++ dotJson) = (natChars k1, dotJson) :=
      parseDigits_append (fun c hc => mem_natChars_isDigit hc) (by decide)
    have p2 : parseDigits (natChars k2 ++ dotJson) = (natChars k2, dotJson) :=
      parseDigits_append (fun c hc => mem_natChars_isDigit hc) (by decide)
    rw [h4, p2] at p1
    injection p1 with p3 _
    exact natChars_inj p3.symm
  · rw [if_pos h1, if_neg h2] at h
    have h3 := List.append_cancel_left h
    rw [show dotJson = '.' :: "json".data from rfl] at h3
    injection h3 with h5 _
    exact absurd h5 (by decide)
  · rw [if_neg h1, if_pos h2] at h
    have h3 := List.append_cancel_left h
    rw [show dotJson = '.' :: "json".data from rfl] at h3
    injection h3 with h5 _
    exact absurd h5 (by decide)
  · omega

/-! ### Directory lemmas -/

theorem lastContent_cons (w : Str × Str) (rest : List (Str × Str)) (n : Str) :
    lastContent (w :: rest) n =
      (match lastContent rest n with
       | some c => some c
       | none => if w.1 = n then some w.2 else none) := rfl

theorem applyWrites_lookup : ∀ (ws : List (Str × Str)) (dd : Str → Option Str)
    (n : Str), applyWrites dd ws n =
      (match lastContent ws n with
       | some c => some c
       | none => dd n) := by
  intro ws
  induction ws with
  | nil => intro dd n; rfl
  | cons w rest ih =>
    intro dd n
    show applyWrites (applyWrite dd w) rest n = _
    rw [ih, lastContent_cons]
    cases hlc : lastContent rest n with
    | some c => rfl
    | none =>
      dsimp only []
      show (if n = w.1 then some w.2 else dd n) = _
      by_cases hw : w.1 = n
      · rw [if_pos hw, if_pos hw.symm]
      · rw [if_neg hw, if_neg (fun he => hw he.symm)]

theorem applyWrites_idem (ws : List (Str × Str)) (dd : Str → Option Str)
    (n : Str) :
    applyWrites (applyWrites dd ws) ws n = applyWrites dd ws n := by
  rw [applyWrites_lookup, applyWrites_lookup]
  cases lastContent ws n <;> rfl

theorem lastContent_mem : ∀ (ws : List (Str × Str)) (n c : Str),
    lastContent ws n = some c → (n, c) ∈ ws := by
  intro ws
  induction ws with
  | nil => intro n c h; exact absurd h (by simp [lastContent])
  | cons w rest ih =>
    intro n c h
    rw [lastContent_cons] at h
    cases hlc : lastContent rest n with
    | some c2 =>
      rw [hlc] at h
      simp only [Option.some.injEq] at h
      subst h
      exact List.mem_cons_of_mem w (ih n c2 hlc)
    | none =>
      rw [hlc] at h
      dsimp only [] at h
      by_cases hw : w.1 = n
      · rw [if_pos hw] at h
        simp only [Option.some.injEq] at h
        subst h
        have : (n, w.2) = w := by
          rw [← hw]
        rw [this]
        exact List.mem_cons_self w rest
      · rw [if_neg hw] at h
        exact absurd h (by simp)

theorem dirNames_length_le (ws : List (Str × Str)) :
    (dirNames ws).length ≤ ws.length := by
  unfold dirNames
  calc ((ws.map Prod.fst).dedup).length ≤ (ws.map Prod.fst).length :=
        (List.dedup_sublist _).length_le
    _ = ws.length := List.length_map _ _

theorem writes_mem_shape {es : List JValue} {counts : List (Str × Nat)}
    (hall : ∀ e ∈ es, goodEntry e = true) {w : Str × Str}
    (hw : w ∈ (splitLoop counts es).writes) :
    ∃ e k, e ∈ es ∧ w = (nameFor (sanitise_filename (entryTitle e)) k,
      dumpsV e 0) := by
  obtain ⟨i, hi⟩ := List.mem_iff_getElem?.mp hw
  obtain ⟨herr, hlen, hpos, hcnt⟩ := splitLoop_good_spec es counts hall
  have hilt : i < es.length := by
    have h1 := (List.getElem?_eq_some_iff.mp hi).1
    rw [hlen] at h1
    exact h1
  have hee : es[i]? = some es[i] := List.getElem?_eq_getElem hilt
  have h2 := hpos i es[i] hee
  rw [hi] at h2
  simp only [Option.some.injEq] at h2
  exact ⟨es[i], _, List.getElem_mem hilt, h2⟩

/-- C2: entries are processed in source order and duplicate-title suffixes are
assigned in that order: the write for the i-th entry (all entries being dicts
with non-empty string titles) is named from its sanitised title and the number
of earlier entries sharing that sanitised title; in particular three entries
titled "Apple" produce exactly Apple.json, Apple_1.json, Apple_2.json holding
the serialisations of the 1st, 2nd and 3rd entries, in that order. -/
theorem claim_C2 :
    (∀ (es : List JValue) (counts : List (Str × Nat)),
      (∀ e ∈ es, goodEntry e = true) →
      ∀ i e, es[i]? = some e →
        (splitLoop counts es).writes[i]? =
          some (nameFor (sanitise_filename (entryTitle e))
            (countsGet counts (sanitise_filename (entryTitle e)) +
              countStr ((es.take i).map fun e2 => sanitise_filename (entryTitle e2))
                (sanitise_filename (entryTitle e))),
            dumpsV e 0)) ∧
    split_dictionary (.arr
        [.obj [(titleKey, .str "Apple".data), ("id".data, .num 1)],
         .obj [(titleKey, .str "Apple".data), ("id".data, .num 2)],
         .obj [(titleKey, .str "Apple".data), ("id".data, .num 3)]]) =
      ⟨[("Apple".data, 3)],
       [("Apple.json".data,
          dumpsV (.obj [(titleKey, .str "Apple".data), ("id".data, .num 1)]) 0),
        ("Apple_1.json".data,
          dumpsV (.obj [(titleKey, .str "Apple".data), ("id".data, .num 2)]) 0),
        ("Apple_2.json".data,
          dumpsV (.obj [(titleKey, .str "Apple".data), ("id".data, .num 3)]) 0)],
       none⟩ := by
  constructor
  · intro es counts hall i e he
    exact (splitLoop_good_spec es counts hall).2.2.1 i e he
  · rfl

theorem claim_C2_witness :
    (∀ e ∈ ([.obj [(titleKey, .str "Apple".data)],
             .obj [(titleKey, .str "Apple".data)]] : List JValue),
      goodEntry e = true) ∧
    (splitLoop [] [.obj [(titleKey, .str "Apple".data)],
        .obj [(titleKey, .str "Apple".data)]]).writes[1]? =
      some ("Apple_1.json".data,
        dumpsV (.obj [(titleKey, .str "Apple".data)]) 0) := by
  refine ⟨by decide, ?_⟩
  have h := claim_C2.1 [.obj [(titleKey, .str "Apple".data)],
    .obj [(titleKey, .str "Apple".data)]] [] (by decide) 1
    (.obj [(titleKey, .str "Apple".data)]) (by rfl)
  rw [h]
  rfl

/-- C3: the `seen_counts` entry for a sanitised title is incremented exactly
once per processed entry with that sanitised title, so after any run over
well-formed entries it equals the number of processed entries with that title
(skipped entries contribute nothing); consequently two entries with the same
sanitised title are always assigned distinct filenames, and — running from the
empty table, as `split_dictionary` does — the filename assigned to each such
entry carries exactly the number of earlier same-sanitised-title entries as
its suffix index (the first occurrence gets index 0, i.e. no suffix), so the
no-suffix/`_1`/`_2`/... assignment matches the entries' relative order in the
source sequence. -/
theorem claim_C3 :
    (∀ (es : List JValue) (counts : List (Str × Nat)),
      (∀ e ∈ es, wfEntry e = true) →
      ∀ st, countsGet (splitLoop counts es).counts st =
        countsGet counts st + countStr (procTitles es) st) ∧
    (∀ (es : List JValue) (counts : List (Str × Nat)),
      (∀ e ∈ es, goodEntry e = true) →
      ∀ (i j : Nat) (ei ej : JValue) (wi wj : Str × Str), i < j →
        es[i]? = some ei → es[j]? = some ej →
        sanitise_filename (entryTitle ei) = sanitise_filename (entryTitle ej) →
        (splitLoop counts es).writes[i]? = some wi →
        (splitLoop counts es).writes[j]? = some wj →
        ¬(wi.1 = wj.1)) ∧
    (∀ es : List JValue,
      (∀ e ∈ es, goodEntry e = true) →
      ∀ (i j : Nat) (ei ej : JValue) (wi wj : Str × Str), i < j →
        es[i]? = some ei → es[j]? = some ej →
        sanitise_filename (entryTitle ei) = sanitise_filename (entryTitle ej) →
        (splitLoop [] es).writes[i]? = some wi →
        (splitLoop [] es).writes[j]? = some wj →
        wi.1 = nameFor (sanitise_filename (entryTitle ej))
          (countStr ((es.take i).map fun e2 => sanitise_filename (entryTitle e2))
            (sanitise_filename (entryTitle ej))) ∧
        wj.1 = nameFor (sanitise_filename (entryTitle ej))
          (countStr ((es.take j).map fun e2 => sanitise_filename (entryTitle e2))
            (sanitise_filename (entryTitle ej))) ∧
        countStr ((es.take i).map fun e2 => sanitise_filename (entryTitle e2))
            (sanitise_filename (entryTitle ej)) <
          countStr ((es.take j).map fun e2 => sanitise_filename (entryTitle e2))
            (sanitise_filename (entryTitle ej))) := by
  refine ⟨?_, ?_, ?_⟩
  · intro es counts hall st
    rw [splitLoop_wf_filter es counts hall]
    have hgood : ∀ e ∈ es.filter goodEntry, goodEntry e = true := by
      intro e he
      exact (List.mem_filter.mp he).2
    exact (splitLoop_good_spec _ counts hgood).2.2.2 st
  · intro es counts hall i j ei ej wi wj hij hei hej hst hwi hwj
    obtain ⟨_, _, hpos, _⟩ := splitLoop_good_spec es counts hall
    have h1 := hpos i ei hei
    have h2 := hpos j ej hej
    rw [hwi] at h1
    rw [hwj] at h2
    simp only [Option.some.injEq] at h1 h2
    intro heq
    rw [h1, h2] at heq
    dsimp only [] at heq
    rw [hst] at heq
    have hks := nameFor_inj heq
    have hmap : ∀ m, ((es.take m).map fun e2 => sanitise_filename (entryTitle e2))
        = ((es.map fun e2 => sanitise_filename (entryTitle e2)).take m) := by
      intro m
      exact List.map_take ..
    rw [hmap i, hmap j] at hks
    have hcc : countStr ((es.map fun e2 => sanitise_filename (entryTitle e2)).take i)
          (sanitise_filename (entryTitle ej)) <
        countStr ((es.map fun e2 => sanitise_filename (entryTitle e2)).take j)
          (sanitise_filename (entryTitle ej)) := by
      apply countStr_take_lt hij
      rw [List.getElem?_map, hei, ← hst]
      rfl
    omega
  · intro es hall i j ei ej wi wj hij hei hej hst hwi hwj
    obtain ⟨_, _, hpos, _⟩ := splitLoop_good_spec es [] hall
    have h1 := hpos i ei hei
    have h2 := hpos j ej hej
    rw [hwi] at h1
    rw [hwj] at h2
    simp only [Option.some.injEq] at h1 h2
    have h0 : countsGet [] (sanitise_filename (entryTitle ej)) = 0 := rfl
    refine ⟨?_, ?_, ?_⟩
    · rw [h1]
      dsimp only []
      rw [hst]
      congr 1
      omega
    · rw [h2]
      dsimp only []
      congr 1
      omega
    · rw [List.map_take, List.map_take]
      apply countStr_take_lt hij
      rw [List.getElem?_map, hei, ← hst]
      rfl

theorem claim_C3_witness :
    (∀ e ∈ ([.obj [(titleKey, .str "A".data)],
             .obj [("x".data, .num 1)]] : List JValue), wfEntry e = true) ∧
    countsGet (splitLoop []
        [.obj [(titleKey, .str "A".data)],
         .obj [("x".data, .num 1)]]).counts "A".data =
      countsGet [] "A".data +
        countStr (procTitles [.obj [(titleKey, .str "A".data)],
          .obj [("x".data, .num 1)]]) "A".data :=
  ⟨by decide, claim_C3.1 [.obj [(titleKey, .str "A".data)],
    .obj [("x".data, .num 1)]] [] (by decide) ("A".data)⟩

/-- C4: the JSON text written for every processed entry deserialises back to a
value equal to the original entry record: `json_loads` after
`json.dump(..., ensure_ascii=False, indent=2)` is the identity, both in
general and for every file content the loop writes. -/
theorem claim_C4 :
    (∀ v : JValue, json_loads (dumpsV v 0) = some v) ∧
    (∀ (es : List JValue) (counts : List (Str × Nat)),
      (∀ e ∈ es, goodEntry e = true) →
      ∀ (i : Nat) (e : JValue) (w : Str × Str), es[i]? = some e →
        (splitLoop counts es).writes[i]? = some w →
        json_loads w.2 = some e) := by
  constructor
  · exact json_loads_dumps
  · intro es counts hall i e w hei hwi
    have h1 := (splitLoop_good_spec es counts hall).2.2.1 i e hei
    rw [hwi] at h1
    simp only [Option.some.injEq] at h1
    rw [h1]
    exact json_loads_dumps e

theorem claim_C4_witness :
    (∀ e ∈ ([.obj [(titleKey, .str "A".data)]] : List JValue),
      goodEntry e = true) ∧
    json_loads (("A.json".data,
        dumpsV (.obj [(titleKey, .str "A".data)]) 0) : Str × Str).2 =
      some (.obj [(titleKey, .str "A".data)]) :=
  ⟨by decide, claim_C4.2 [.obj [(titleKey, .str "A".data)]] [] (by decide) 0
    (.obj [(titleKey, .str "A".data)])
    ("A.json".data, dumpsV (.obj [(titleKey, .str "A".data)]) 0)
    (by rfl) (by rfl)⟩

theorem claim_C1_witness :
    ('a' ∈ sanitise_filename (" a*b ".data)) ∧
    (invalidChar 'a' = false ∧ ('a' = '_' ∨ 'a' ∈ " a*b ".data)) :=
  ⟨by decide, (claim_C1 (" a*b ".data)).2.1 'a' (by decide)⟩

/-- C5 (amended): after a run over well-formed entries no error is raised, one
write is performed per entry with a truthy title, the directory holds N
distinct files with N at most the number of such entries (at most — not
exactly — one file per such entry, because the suffixed name of one sanitised
title can collide with another, the later write overwriting), each file named
`{st}.json` or `{st}_{k}.json` for a sanitised title st, and each holding the
serialisation of exactly one entry. -/
theorem claim_C5 (es : List JValue) (counts : List (Str × Nat))
    (hall : ∀ e ∈ es, wfEntry e = true) :
    (splitLoop counts es).err = none ∧
    (splitLoop counts es).writes.length = (es.filter goodEntry).length ∧
    (dirNames (splitLoop counts es).writes).length ≤
      (es.filter goodEntry).length ∧
    (es.filter goodEntry).length ≤ es.length ∧
    (∀ n c, lastContent (splitLoop counts es).writes n = some c →
      ∃ e k, e ∈ es ∧ goodEntry e = true ∧
        n = nameFor (sanitise_filename (entryTitle e)) k ∧ c = dumpsV e 0) := by
  rw [splitLoop_wf_filter es counts hall]
  have hgood : ∀ e ∈ es.filter goodEntry, goodEntry e = true :=
    fun e he => (List.mem_filter.mp he).2
  obtain ⟨herr, hlen, hpos, hcnt⟩ := splitLoop_good_spec _ counts hgood
  refine ⟨herr, hlen, ?_, List.length_filter_le _ _, ?_⟩
  · calc (dirNames (splitLoop counts (es.filter goodEntry)).writes).length
        ≤ (splitLoop counts (es.filter goodEntry)).writes.length :=
          dirNames_length_le _
      _ = (es.filter goodEntry).length := hlen
  · intro n c hlc
    have hmem := lastContent_mem _ n c hlc
    obtain ⟨e, k, hemem, hw⟩ := writes_mem_shape hgood hmem
    rw [Prod.ext_iff] at hw
    exact ⟨e, k, (List.mem_filter.mp hemem).1, (List.mem_filter.mp hemem).2,
      hw.1, hw.2⟩

theorem claim_C5_witness :
    (∀ e ∈ ([.obj [(titleKey, .str "B".data)]] : List JValue),
      wfEntry e = true) ∧
    (splitLoop [] [.obj [(titleKey, .str "B".data)]]).err = none :=
  ⟨by decide, (claim_C5 [.obj [(titleKey, .str "B".data)]] [] (by decide)).1⟩

theorem claim_C5_counterexample :
    (List.filter goodEntry
      [JValue.obj [(titleKey, .str "a_1".data)],
       JValue.obj [(titleKey, .str "a".data)],
       JValue.obj [(titleKey, .str "a".data)]]).length = 3 ∧
    (dirNames (split_dictionary (.arr
      [JValue.obj [(titleKey, .str "a_1".data)],
       JValue.obj [(titleKey, .str "a".data)],
       JValue.obj [(titleKey, .str "a".data)]])).writes).length = 2 := by
  exact ⟨rfl, rfl⟩

/-- C6 (amended): when the file content is not valid JSON, `json.load` raises
the decode error (the spec's `DataFormatError`) and nothing is written; but a
valid-JSON non-array top level is not detected as such: iterating
`{"not": "an array"}` yields its keys, and `.get` on the first key raises
`AttributeError` (not a `DataFormatError`) with nothing written, while an
empty object `{}` yields no error at all and no files. -/
theorem claim_C6 :
    (∀ content : Str, json_loads content = none →
      split_file content = ⟨[], [], some .jsonDecodeError⟩) ∧
    split_file ([lbraceC, quoteC] ++ "not".data ++ [quoteC, ':', ' ', quoteC] ++
        "an array".data ++ [quoteC, rbraceC]) =
      ⟨[], [], some .attributeError⟩ ∧
    split_file [lbraceC, rbraceC] = ⟨[], [], none⟩ := by
  refine ⟨?_, ?_, ?_⟩
  · intro content h
    unfold split_file
    rw [h]
  · rfl
  · rfl

theorem claim_C6_witness :
    json_loads ['x'] = none ∧
    split_file ['x'] = ⟨[], [], some .jsonDecodeError⟩ :=
  ⟨rfl, claim_C6.1 ['x'] rfl⟩

theorem claim_C6_counterexample :
    json_loads [lbraceC, rbraceC] = some (.obj []) ∧
    (split_file [lbraceC, rbraceC]).err = none ∧
    (split_file [lbraceC, rbraceC]).writes = [] :=
  ⟨rfl, rfl, rfl⟩

/-- C7: an entry whose `title` is the empty string or absent is skipped with
no error: its step writes nothing and leaves the `seen_counts` table
untouched, and deleting it from the entry sequence leaves the whole run
(writes, counts and error) unchanged, so it affects no other entry's
filename. -/
theorem claim_C7 :
    (∀ (fs : List (Str × JValue)) (counts : List (Str × Nat)),
      lookupA fs titleKey = none ∨ lookupA fs titleKey = some (.str []) →
      stepEntry counts (.obj fs) = ⟨counts, [], none⟩) ∧
    (∀ (fs : List (Str × JValue)) (counts : List (Str × Nat))
        (p q : List JValue),
      lookupA fs titleKey = none ∨ lookupA fs titleKey = some (.str []) →
      splitLoop counts (p ++ .obj fs :: q) = splitLoop counts (p ++ q)) := by
  have key : ∀ fs : List (Str × JValue),
      lookupA fs titleKey = none ∨ lookupA fs titleKey = some (.str []) →
      truthy ((lookupA fs titleKey).getD .null) = false := by
    intro fs h
    cases h with
    | inl h => rw [h]; rfl
    | inr h => rw [h]; rfl
  exact ⟨fun fs counts h => stepEntry_skip (key fs h) counts,
    fun fs counts p q h => splitLoop_skip_middle (key fs h) p counts q⟩

theorem claim_C7_witness :
    (lookupA [("x".data, JValue.num 1)] titleKey = none ∨
      lookupA [("x".data, JValue.num 1)] titleKey = some (.str [])) ∧
    stepEntry [] (.obj [("x".data, JValue.num 1)]) = ⟨[], [], none⟩ :=
  ⟨Or.inl rfl, claim_C7.1 [("x".data, JValue.num 1)] [] (Or.inl rfl)⟩

/-- C8: the writes are a pure function of the parsed input, so rerunning the
Splitter on an unchanged input writes the same filenames with identical
content; re-applying the write list to the directory state left by the first
run (writes overwrite pre-existing files) leaves every file unchanged. -/
theorem claim_C8 (content : Str) (dd : Str → Option Str) (n : Str) :
    applyWrites (applyWrites dd (split_file content).writes)
        (split_file content).writes n =
      applyWrites dd (split_file content).writes n :=
  applyWrites_idem _ dd n

/-- C9: every processed entry results in exactly one write whose content is
the entry serialised with 2-space indentation (`dumpsV _ 0`), non-ASCII
characters are never escaped, a non-empty object serialises with the indent-2
layout, and a write to an existing name replaces its content. -/
theorem claim_C9 :
    (∀ (counts : List (Str × Nat)) (e : JValue), goodEntry e = true →
      stepEntry counts e =
        ⟨countsIncr counts (sanitise_filename (entryTitle e)),
         [(nameFor (sanitise_filename (entryTitle e))
             (countsGet counts (sanitise_filename (entryTitle e))),
           dumpsV e 0)], none⟩) ∧
    (∀ c : Char, 128 ≤ c.toNat → escChar c = [c]) ∧
    (∀ (f0 : Str × JValue) (fs : List (Str × JValue)) (d : Nat),
      dumpsV (.obj (f0 :: fs)) d =
        lbraceC :: '\n' :: indentChars (d + 1) ++ dumpsFields (f0 :: fs) (d + 1)
          ++ '\n' :: indentChars d ++ [rbraceC]) ∧
    (∀ (dd : Str → Option Str) (w : Str × Str), applyWrite dd w w.1 = some w.2) := by
  refine ⟨?_, ?_, ?_, ?_⟩
  · intro counts e h
    exact stepEntry_good h counts
  · intro c h
    unfold escChar
    rw [if_neg (by intro he; rw [he] at h; exact absurd h (by decide)),
      if_neg (by intro he; rw [he] at h; exact absurd h (by decide)),
      if_neg (by intro he; rw [he] at h; exact absurd h (by decide)),
      if_neg (by intro he; rw [he] at h; exact absurd h (by decide)),
      if_neg (by intro he; rw [he] at h; exact absurd h (by decide)),
      if_neg (by omega), if_neg (by omega), if_neg (by omega)]
  · intro f0 fs d
    rfl
  · intro dd w
    unfold applyWrite
    rw [if_pos rfl]

theorem claim_C9_witness :
    goodEntry (.obj [(titleKey, .str "W".data)]) = true ∧
    stepEntry [] (.obj [(titleKey, .str "W".data)]) =
      ⟨countsIncr []
         (sanitise_filename (entryTitle (.obj [(titleKey, .str "W".data)]))),
       [(nameFor
           (sanitise_filename (entryTitle (.obj [(titleKey, .str "W".data)])))
           (countsGet []
             (sanitise_filename (entryTitle (.obj [(titleKey, .str "W".data)])))),
         dumpsV (.obj [(titleKey, .str "W".data)]) 0)], none⟩ :=
  ⟨by decide, claim_C9.1 [] (.obj [(titleKey, .str "W".data)]) (by decide)⟩

/-- C10 (implicit): the skip condition is Python falsiness — any entry whose
`title` value is falsy (`null`, `false`, `0`, `""`, `[]`, `{}`), like a
missing title, is skipped with no write, no error and no change to the
`seen_counts` table, and removing it does not change the run; only truthy
titles reach the sanitiser. -/
theorem claim_C10 :
    (∀ (fs : List (Str × JValue)) (counts : List (Str × Nat)),
      truthy ((lookupA fs titleKey).getD .null) = false →
      stepEntry counts (.obj fs) = ⟨counts, [], none⟩) ∧
    (∀ (fs : List (Str × JValue)) (counts : List (Str × Nat))
        (p q : List JValue),
      truthy ((lookupA fs titleKey).getD .null) = false →
      splitLoop counts (p ++ .obj fs :: q) = splitLoop counts (p ++ q)) ∧
    (∀ counts : List (Str × Nat),
      stepEntry counts (.obj [(titleKey, .null)]) = ⟨counts, [], none⟩ ∧
      stepEntry counts (.obj [(titleKey, .bool false)]) = ⟨counts, [], none⟩ ∧
      stepEntry counts (.obj [(titleKey, .num 0)]) = ⟨counts, [], none⟩ ∧
      stepEntry counts (.obj [(titleKey, .str [])]) = ⟨counts, [], none⟩ ∧
      stepEntry counts (.obj [(titleKey, .arr [])]) = ⟨counts, [], none⟩ ∧
      stepEntry counts (.obj [(titleKey, .obj [])]) = ⟨counts, [], none⟩) := by
  refine ⟨?_, ?_, ?_⟩
  · intro fs counts h
    exact stepEntry_skip h counts
  · intro fs counts p q h
    exact splitLoop_skip_middle h p counts q
  · intro counts
    refine ⟨?_, ?_, ?_, ?_, ?_, ?_⟩ <;> exact stepEntry_skip (by rfl) counts

theorem claim_C10_witness :
    truthy ((lookupA [(titleKey, JValue.num 0)] titleKey).getD .null) = false ∧
    stepEntry [] (.obj [(titleKey, JValue.num 0)]) = ⟨[], [], none⟩ :=
  ⟨rfl, claim_C10.1 [(titleKey, JValue.num 0)] [] rfl⟩

end MoeSplit
